import Mathlib

/-!
Verification of the YSON V2 converter (`YSONConverter` in the source).

The JavaScript source is shallowly embedded here.  Strings are modelled at the
character-list level (`List Char`), and every JavaScript string primitive the
converter touches (`trim`, `split('\n')`, `split(/\s+/)`, `search(/\S/)`,
`Number(...)`, string concatenation) is modelled by an explicit recursive
function on `List Char`, so that all definitions compute by kernel reduction.

JavaScript numbers are IEEE-754 doubles; this embedding models the numeric
kind by integers, which is the fragment exercised by the converter's own
examples and tests.  `jsParseNumber?` recognises exactly the token shapes that
JavaScript `Number(...)` accepts, and computes the exact value on
integer-valued literals; on fractional or infinite literals it truncates
(those tokens lie outside the domain of every claim proved below).
-/

namespace YSON

abbrev Chars := List Char

/-- Model of the JavaScript `\s` character class (whitespace and line
terminators), used by `trim`, `search(/\S/)`, `split(/\s+/)` and the
`/\s/.test` quoting check in `formatValue`. -/
def isJsWs (c : Char) : Bool :=
  c = ' ' || c = '\t' || c = '\n' || c = '\r' || c = '\x0b' || c = '\x0c' ||
  c = '\u00a0' || c = '\u1680' || (8192 ≤ c.toNat && c.toNat ≤ 8202) ||
  c = '\u2028' || c = '\u2029' || c = '\u202f' || c = '\u205f' ||
  c = '\u3000' || c = '\ufeff'

/-- Model of JavaScript `String.prototype.trim`. -/
def jsTrimL (s : Chars) : Chars :=
  ((s.dropWhile isJsWs).reverse.dropWhile isJsWs).reverse

/-- Model of JavaScript `str.split('\n')`: `""` yields `[""]`, a trailing
newline yields a trailing empty piece. -/
def splitNl : Chars → List Chars
  | [] => [[]]
  | c :: rest =>
    if c = '\n' then [] :: splitNl rest
    else
      match splitNl rest with
      | [] => [[c]]
      | h :: t => (c :: h) :: t

/-- Model of JavaScript `line.search(/\S/)`: index of the first
non-whitespace character, `-1` when the line is all whitespace.  This is the
converter's `getIndent`. -/
def getIndentL (l : Chars) : Int :=
  match l.findIdx? (fun c => !(isJsWs c)) with
  | some i => (i : Int)
  | none => -1

/-- Join character lists with a separator character (models `Array.join`). -/
def joinWith (sep : Char) : List Chars → Chars
  | [] => []
  | [x] => x
  | x :: y :: t => x ++ sep :: joinWith sep (y :: t)

/-- The two-space indentation prefix `'  '.repeat(indent)`. -/
def twoSpaces (indent : Nat) : Chars := List.replicate (2 * indent) ' '

/-! Decimal digits and the integer fragment of JavaScript number printing. -/

def digitCh : Nat → Char
  | 0 => '0' | 1 => '1' | 2 => '2' | 3 => '3' | 4 => '4'
  | 5 => '5' | 6 => '6' | 7 => '7' | 8 => '8' | 9 => '9'
  | _ => '?'

def isDigitC (c : Char) : Bool := 48 ≤ c.toNat && c.toNat ≤ 57

def digitVal (c : Char) : Nat := c.toNat - 48

def digitsVal (ds : Chars) : Nat := ds.foldl (fun acc c => 10 * acc + digitVal c) 0

def natDigitsAux : Nat → Nat → Chars
  | 0, _ => []
  | fuel + 1, n =>
    if n < 10 then [digitCh n]
    else natDigitsAux fuel (n / 10) ++ [digitCh (n % 10)]

/-- Decimal digit string of a natural number (model of `String(n)` for a
non-negative integer-valued JavaScript number). -/
def natDigits (n : Nat) : Chars := natDigitsAux (n + 1) n

/-- Model of `String(value)` for an integer-valued JavaScript number. -/
def numToChars (i : Int) : Chars :=
  if i < 0 then '-' :: natDigits i.natAbs else natDigits i.toNat

/-! Model of the `!isNaN(str) && str !== ''` test plus `Number(str)` used by
`parseValue`.  The input is already trimmed by `parseValue`. -/

def isHexDigitC (c : Char) : Bool :=
  isDigitC c || (97 ≤ c.toNat && c.toNat ≤ 102) || (65 ≤ c.toNat && c.toNat ≤ 70)

def hexDigitVal (c : Char) : Nat :=
  if isDigitC c then digitVal c
  else if 97 ≤ c.toNat && c.toNat ≤ 102 then c.toNat - 87
  else c.toNat - 55

def hexVal (ds : Chars) : Nat := ds.foldl (fun acc c => 16 * acc + hexDigitVal c) 0

def isBinDigitC (c : Char) : Bool := c = '0' || c = '1'

def binVal (ds : Chars) : Nat := ds.foldl (fun acc c => 2 * acc + digitVal c) 0

def isOctDigitC (c : Char) : Bool := 48 ≤ c.toNat && c.toNat ≤ 55

def octVal (ds : Chars) : Nat := ds.foldl (fun acc c => 8 * acc + digitVal c) 0

/-- Magnitude of a decimal literal with integer digits `ip`, fraction digits
`fp` and exponent `e` (truncating integer division below one; such literals
are outside every claim's domain). -/
def decMagnitude (ip fp : Chars) (e : Int) : Nat :=
  let m := digitsVal (ip ++ fp)
  let sh : Int := e - (fp.length : Int)
  if 0 ≤ sh then m * 10 ^ sh.toNat else m / 10 ^ (-sh).toNat

/-- Decimal-literal branch of `Number(...)` after an optional sign has been
removed: digits, optional fraction, optional exponent.  Returns the magnitude,
or `none` when the token is not a number (`NaN`). -/
def parseDecMag (s : Chars) : Option Nat :=
  if s = "Infinity".data then some 0
  else
    let ip := s.takeWhile isDigitC
    let r1 := s.dropWhile isDigitC
    let contExp : Chars → Chars → Chars → Option Nat := fun ip fp r =>
      match r with
      | [] => some (decMagnitude ip fp 0)
      | e :: t =>
        if e = 'e' || e = 'E' then
          let (esign, t2) : Int × Chars :=
            match t with
            | '+' :: t2 => (1, t2)
            | '-' :: t2 => (-1, t2)
            | _ => (1, t)
          let ed := t2.takeWhile isDigitC
          let t3 := t2.dropWhile isDigitC
          if ed ≠ [] ∧ t3 = [] then
            some (decMagnitude ip fp (esign * (digitsVal ed : Int)))
          else none
        else none
    match r1 with
    | '.' :: t =>
      let fp := t.takeWhile isDigitC
      let r2 := t.dropWhile isDigitC
      if ip = [] ∧ fp = [] then none else contExp ip fp r2
    | _ => if ip = [] then none else contExp ip [] r1

/-- Model of `(!isNaN(str) && str !== '') ? Number(str) : NaN` on an already
trimmed token: `none` exactly when JavaScript would see `NaN` or the empty
string; on integer-valued literals the returned value is exact. -/
def jsParseNumber? (s : Chars) : Option Int :=
  match s with
  | [] => none
  | '0' :: x :: rest =>
    if (x = 'x' || x = 'X') && !rest.isEmpty && rest.all isHexDigitC then
      some (hexVal rest : Int)
    else if (x = 'b' || x = 'B') && !rest.isEmpty && rest.all isBinDigitC then
      some (binVal rest : Int)
    else if (x = 'o' || x = 'O') && !rest.isEmpty && rest.all isOctDigitC then
      some (octVal rest : Int)
    else (parseDecMag s).map (fun m => (m : Int))
  | '+' :: t => (parseDecMag t).map (fun m => (m : Int))
  | '-' :: t => (parseDecMag t).map (fun m => -(m : Int))
  | _ => (parseDecMag s).map (fun m => (m : Int))

/-! The data model: a JSON-like tree (§3 of the spec).  JavaScript numbers
are modelled by integers (see the header comment). -/

inductive Value where
  | vnull : Value
  | vbool (b : Bool) : Value
  | vnum (n : Int) : Value
  | vstr (s : String) : Value
  | varr (elems : List Value) : Value
  | vobj (fields : List (String × Value)) : Value
deriving Repr

open Value

/-- Model of the JavaScript test `typeof v === 'object' && v !== null`:
true exactly for arrays and objects of the data model (`typeof null` is
`'object'` in JavaScript but every site in the source pairs the test with a
null check). -/
def isJsObject : Value → Bool
  | varr _ => true
  | vobj _ => true
  | _ => false

/-- Model of `Object.keys`: field names of an object, index strings of an
array (JavaScript arrays are objects whose own enumerable keys are their
index strings), empty otherwise. -/
def jsKeys : Value → List String
  | vobj fs => fs.map (fun p => p.1)
  | varr xs => (List.range xs.length).map (fun i => String.mk (natDigits i))
  | _ => []

/-- Lexicographic order on strings by character code, the default-comparator
order JavaScript `Array.prototype.sort()` uses on these key lists. -/
def charsLe : Chars → Chars → Bool
  | [], _ => true
  | _ :: _, [] => false
  | a :: as, b :: bs => if a = b then charsLe as bs else decide (a < b)

def insertKey (k : String) : List String → List String
  | [] => [k]
  | h :: t => if charsLe k.data h.data then k :: h :: t else h :: insertKey k t

/-- Model of `Object.keys(x).sort()` (insertion sort; equality of two such
sorted lists coincides with equality of the JavaScript-sorted lists, both
being canonical forms of the key multiset). -/
def sortKeys : List String → List String
  | [] => []
  | h :: t => insertKey h (sortKeys t)

/-- The converter's `hasUniformStructure`: first element must pass the
object-and-non-null test, and every element must pass it with the same sorted
key list (the `JSON.stringify` comparison of two string lists is their
equality). -/
def hasUniformStructure (arr : List Value) : Bool :=
  match arr with
  | [] => false
  | x :: _ =>
    if !(isJsObject x) then false
    else arr.all (fun item =>
      isJsObject item && decide (sortKeys (jsKeys item) = sortKeys (jsKeys x)))

/-- Canonical array-index reading of a key (JavaScript `arr[k]` for a string
key returns an element only when `k` is the canonical numeral of an index). -/
def natCanonical? (s : Chars) : Option Nat :=
  if !s.isEmpty && s.all isDigitC && (s = ['0'] || !(s.headD '0' = '0')) then
    some (digitsVal s)
  else none

/-- Model of the property access `item[k]`: association lookup on objects,
index lookup on arrays, `undefined` (`none`) otherwise. -/
def objGet (v : Value) (k : String) : Option Value :=
  match v with
  | vobj fs => (fs.find? (fun p => p.1 = k)).map (fun p => p.2)
  | varr xs =>
    match natCanonical? k.data with
    | some i => xs.get? i
    | none => none
  | _ => none

/-- Model of the property assignment `obj[k] = v` on the association-list
representation: updates in place (JavaScript keeps the original insertion
position on re-assignment), appends otherwise. -/
def objAssign (fs : List (String × Value)) (k : String) (v : Value) :
    List (String × Value) :=
  match fs with
  | [] => [(k, v)]
  | (k1, v1) :: t => if k1 = k then (k, v) :: t else (k1, v1) :: objAssign t k v

/-! Model of the JavaScript string coercion `String(value)` on containers
(reachable from `formatValue`'s fall-through): objects print as
`[object Object]`, arrays join their coerced elements with commas, `null`
elements joining as the empty string. -/

mutual

def jsCoerceChars : Value → Chars
  | vnull => "null".data
  | vbool b => if b then "true".data else "false".data
  | vnum n => numToChars n
  | vstr s => s.data
  | vobj _ => "[object Object]".data
  | varr xs => arrJoinChars xs

def arrJoinChars : List Value → Chars
  | [] => []
  | [x] => elemCoerce x
  | x :: y :: t => elemCoerce x ++ ',' :: arrJoinChars (y :: t)

def elemCoerce : Value → Chars
  | vnull => []
  | vbool b => if b then "true".data else "false".data
  | vnum n => numToChars n
  | vstr s => s.data
  | vobj _ => "[object Object]".data
  | varr xs => arrJoinChars xs

end

/-- The converter's `formatValue`: `null`, booleans and numbers print bare;
a string is wrapped in double quotes exactly when it contains a `\s`
character; anything else falls through to `String(value)`. -/
def formatValueL (v : Value) : Chars :=
  match v with
  | vnull => "null".data
  | vbool b => if b then "true".data else "false".data
  | vnum n => numToChars n
  | vstr s => if s.data.any isJsWs then '"' :: (s.data ++ ['"']) else s.data
  | v => jsCoerceChars v

def formatValue (v : Value) : String := String.mk (formatValueL v)

/-- The converter's `encodeWithSchema`: a `$S key1 … keyN` marker line with
the first element's keys in iteration order, then one row per element at one
extra indent, each row the space-joined formatted values (a missing property
formats as `undefined`, JavaScript's coercion of an absent key). -/
def encodeWithSchemaL (arr : List Value) (indent : Nat) : Chars :=
  let spaces := twoSpaces indent
  let keys := jsKeys (arr.headD vnull)
  let schema := "$S ".data ++ joinWith ' ' (keys.map (fun k => k.data))
  let rows := arr.map (fun item =>
    spaces ++ "  ".data ++ joinWith ' ' (keys.map (fun k =>
      match objGet item k with
      | some w => formatValueL w
      | none => "undefined".data)))
  spaces ++ schema ++ '\n' :: joinWith '\n' rows

mutual

/-- The converter's `encode`.  Arrays: schema form when longer than one and
uniform, a single inline line when every element fails the object test, one
block per element otherwise.  Objects: entries partition into simple
(non-object values) and complex; simple pairs join on one line, each complex
entry contributes its key line and its block one indent deeper.  Anything
else contributes no lines (the `result` array stays empty and joins to the
empty string). -/
def encodeL (v : Value) (indent : Nat) : Chars :=
  match v with
  | varr xs =>
    if decide (1 < xs.length) && hasUniformStructure xs then
      encodeWithSchemaL xs indent
    else if xs.all (fun item => !(isJsObject item)) then
      twoSpaces indent ++ joinWith ' ' (xs.map formatValueL)
    else
      joinWith '\n' (encodeEach xs indent)
  | vobj fs =>
    let simple := fs.filter (fun p => !(isJsObject p.2))
    let pairsLine : List Chars :=
      if simple.isEmpty then []
      else [twoSpaces indent ++
        joinWith ' ' (simple.map (fun p => p.1.data ++ ' ' :: formatValueL p.2))]
    joinWith '\n' (pairsLine ++ encodeBlocks fs indent)
  | _ => []

/-- One entry of the encoder's `result` array per array element. -/
def encodeEach : List Value → Nat → List Chars
  | [], _ => []
  | x :: t, indent => encodeL x indent :: encodeEach t indent

/-- The complex-entry lines of an object: the loop `for (const [key, value]
of complex)` pushing the key line and the recursive block (the walk skips
simple entries, which is the order-preserving partition of the source). -/
def encodeBlocks : List (String × Value) → Nat → List Chars
  | [], _ => []
  | (k, v) :: t, indent =>
    if isJsObject v then
      (twoSpaces indent ++ k.data) :: encodeL v (indent + 1) :: encodeBlocks t indent
    else encodeBlocks t indent

end

/-- The converter's `encode`, at the string level. -/
def encode (v : Value) (indent : Nat) : String := String.mk (encodeL v indent)

/-! The decoder. -/

/-- The converter's `tokenize` loop: a `current` accumulator and an
`inQuotes` flag; a closing quote emits the accumulated span with its quotes
restored, a space outside quotes flushes a non-empty accumulator, end of line
flushes whatever remains (an unterminated quote is emitted without quotes). -/
def tokGo : Chars → Chars → Bool → List Chars
  | [], cur, _ => if cur.isEmpty then [] else [cur]
  | c :: rest, cur, inQ =>
    if c = '"' then
      if inQ then ('"' :: (cur ++ ['"'])) :: tokGo rest [] false
      else tokGo rest cur true
    else if c = ' ' && !inQ then
      if cur.isEmpty then tokGo rest [] false else cur :: tokGo rest [] false
    else tokGo rest (cur ++ [c]) inQ

def tokenizeL (line : Chars) : List Chars := tokGo line [] false

/-- The converter's `parseValue`: trim, strip a quote-delimited token to a
string, read the three literals, then the number test, else a bare string. -/
def parseValueL (tok : Chars) : Value :=
  let str := jsTrimL tok
  if str.head? = some '"' && str.getLast? = some '"' then
    Value.vstr (String.mk ((str.drop 1).dropLast))
  else if str = "true".data then Value.vbool true
  else if str = "false".data then Value.vbool false
  else if str = "null".data then Value.vnull
  else
    match jsParseNumber? str with
    | some n => Value.vnum n
    | none => Value.vstr (String.mk str)

/-- The converter's `isKeyValueLine`: at least two tokens and an even count. -/
def isKeyValueLine (line : Chars) : Bool :=
  let tokens := tokenizeL line
  decide (2 ≤ tokens.length) && decide (tokens.length % 2 = 0)

/-- The converter's `parseInlinePairs` token walk: tokens two at a time as
(key, parsed value); a trailing lone token is dropped by the bounds check. -/
def pairsOf : List Chars → List (String × Value)
  | k :: v :: rest => (String.mk k, parseValueL v) :: pairsOf rest
  | _ => []

/-- Merging parsed pairs into the object being built models
`Object.assign(obj, pairs)`: assignments in pair order. -/
def mergePairs (obj : List (String × Value)) (ps : List (String × Value)) :
    List (String × Value) :=
  ps.foldl (fun o p => objAssign o p.1 p.2) obj

mutual

/-- Model of `str.split(/\s+/)`: a leading whitespace run yields a leading
empty piece and a trailing run a trailing empty piece, as in JavaScript. -/
def splitWsGo : Chars → Chars → List Chars
  | [], cur => [cur]
  | c :: r, cur => if isJsWs c then cur :: splitWsSkip r else splitWsGo r (cur ++ [c])

/-- Skips the rest of a whitespace run; at end of input the run was trailing
and contributes a final empty piece. -/
def splitWsSkip : Chars → List Chars
  | [] => [[]]
  | c :: r => if isJsWs c then splitWsSkip r else splitWsGo r [c]

end

def jsSplitWs (s : Chars) : List String := (splitWsGo s []).map String.mk

/-- Does a line start with the schema marker, `line.startsWith('$S ')`? -/
def startsWithMark (s : Chars) : Bool := decide (s.take 3 = ['$', 'S', ' '])

/-- Key list of a schema marker line: `schemaLine.substring(3).split(/\s+/)`. -/
def markerKeys (markerLine : Chars) : List String :=
  jsSplitWs ((jsTrimL markerLine).drop 3)

/-- One schema row: the `for` loop assigning `obj[keys[j]] =
parseValue(values[j])` while both indices are in range — positional zipping
that drops extra tokens and leaves missing keys unset. -/
def schemaRow (keys : List String) (values : List Chars) : Value :=
  Value.vobj ((keys.zip values).foldl
    (fun o p => objAssign o p.1 (parseValueL p.2)) [])

/-- The row loop of `parseSchema`: consume every following line strictly
deeper than the marker's indent as one row; stop at the first line at or
above it. -/
def schemaRows (keys : List String) (base : Int) : List Chars →
    List Value × List Chars
  | [] => ([], [])
  | l :: rest =>
    if getIndentL l ≤ base then ([], l :: rest)
    else
      let row := schemaRow keys (tokenizeL (jsTrimL l))
      let more := schemaRows keys base rest
      (row :: more.1, more.2)

/-- The converter's `parseSchema`, on the marker line and the lines after
it; returns the array of row objects and the unconsumed suffix. -/
def parseSchemaL (markerLine : Chars) (rest : List Chars) :
    Value × List Chars :=
  let res := schemaRows (markerKeys markerLine) (getIndentL markerLine) rest
  (Value.varr res.1, res.2)

mutual

/-- The converter's `parseLines`, on the suffix of lines from the current
index (the returned suffix is the source's `nextIdx`).  The `fuel` argument
makes the source's index-advancing loop structurally recursive; `decode`
supplies fuel that the loop can never exhaust (each recursive call either
consumes a line or moves to the mutual partner once). -/
def parseLinesF : Nat → List Chars → Value × List Chars
  | 0, ls => (Value.vnull, ls)
  | _ + 1, [] => (Value.vnull, [])
  | fuel + 1, l :: rest =>
    if startsWithMark (jsTrimL l) then parseSchemaL l rest
    else objLoopF fuel (getIndentL l) [] (l :: rest)

/-- The object-building `while` loop of `parseLines`: stop below the base
indent, defensively skip deeper lines, short-circuit to schema parsing on a
marker line at the base, merge inline pairs, and treat anything else as a
bare key whose value is the following deeper block if there is one and
`null` otherwise. -/
def objLoopF : Nat → Int → List (String × Value) → List Chars →
    Value × List Chars
  | 0, _, obj, ls => (Value.vobj obj, ls)
  | _ + 1, _, obj, [] => (Value.vobj obj, [])
  | fuel + 1, base, obj, l :: rest =>
    let indent := getIndentL l
    if indent < base then (Value.vobj obj, l :: rest)
    else if base < indent then objLoopF fuel base obj rest
    else
      let line := jsTrimL l
      if startsWithMark line then parseSchemaL l rest
      else if isKeyValueLine line then
        objLoopF fuel base (mergePairs obj (pairsOf (tokenizeL line))) rest
      else
        let key := String.mk line
        match rest with
        | [] => objLoopF fuel base (objAssign obj key Value.vnull) []
        | l2 :: _ =>
          if indent < getIndentL l2 then
            let nested := parseLinesF fuel rest
            objLoopF fuel base (objAssign obj key nested.1) nested.2
          else objLoopF fuel base (objAssign obj key Value.vnull) rest

end

/-- The non-blank lines of the input: `split('\n').filter(l => l.trim())`. -/
def decodeLines (s : String) : List Chars :=
  (splitNl s.data).filter (fun l => !(jsTrimL l).isEmpty)

/-- The converter's `decode`: split into non-blank lines and parse from the
first one.  The fuel bound `2n + 2` strictly dominates the source loop's call
count on `n` lines. -/
def decode (s : String) : Value :=
  let lines := decodeLines s
  (parseLinesF (2 * lines.length + 2) lines).1

/-! Well-formedness predicates delimiting the round-trip domain, the
key-order-insensitive equality of §3, and proof-level helpers. -/

/-- Does the two-character marker sequence `$S` occur anywhere? -/
def containsMark : Chars → Bool
  | [] => false
  | '$' :: 'S' :: _ => true
  | _ :: t => containsMark t

def noDupKeys : List String → Bool
  | [] => true
  | k :: t => !(t.contains k) && noDupKeys t

/-- A string value that survives the trip through `formatValue`, one text
line, `tokenize` and `parseValue`: no double quote, no newline, and — when it
has no whitespace and is therefore emitted bare — not empty and not a token
the parser reinterprets (`true`, `false`, `null`, or a number). -/
def goodStr (s : String) : Bool :=
  !(s.data.contains '"') && !(s.data.contains '\n') &&
  (s.data.any isJsWs ||
    (!s.data.isEmpty && !(s.data == "true".data) && !(s.data == "false".data) &&
     !(s.data == "null".data) && (jsParseNumber? s.data).isNone))

/-- An object key that the line grammar can carry: non-empty, free of
whitespace and double quotes, and not containing the marker sequence (§3's
key invariant, plus quote-freedom which the tokenizer needs). -/
def goodKey (k : String) : Bool :=
  !k.data.isEmpty && !(k.data.any (fun c => isJsWs c || c = '"')) &&
  !(containsMark k.data)

def goodPrim : Value → Bool
  | Value.vnull => true
  | Value.vbool _ => true
  | Value.vnum _ => true
  | Value.vstr s => goodStr s
  | _ => false

/-- A schema-row element: a non-empty object with distinct good keys and
good primitive values. -/
def goodRowObj : Value → Bool
  | Value.vobj gs =>
    !gs.isEmpty && noDupKeys (gs.map (fun p => p.1)) &&
    gs.all (fun p => goodKey p.1 && goodPrim p.2)
  | _ => false

/-- Fuelled well-formedness of a container in value position: an object has
distinct good keys, primitive values good and container values recursively
good; an array is in the only shape the decoder reconstructs — a uniform
object array of length above one with primitive-valued rows.  Exhausted fuel
is `false`, so `goodF n v = true` certifies the structure outright. -/
def goodF : Nat → Value → Bool
  | 0, _ => false
  | fuel + 1, v =>
    match v with
    | Value.vobj fs =>
      !fs.isEmpty && noDupKeys (fs.map (fun p => p.1)) &&
      fs.all (fun p => goodKey p.1 &&
        (if isJsObject p.2 then goodF fuel p.2 else goodPrim p.2))
    | Value.varr xs =>
      match xs with
      | x0 :: _ =>
        decide (1 < xs.length) &&
        xs.all (fun x => goodRowObj x &&
          decide (sortKeys (jsKeys x) = sortKeys (jsKeys x0)))
      | [] => false
    | _ => false

mutual

/-- Key-order-insensitive deep equality (the §3 equality): identical leaves,
pointwise-related arrays, and objects whose field lists match up to a
permutation with equal keys and related values. -/
inductive KeyPermEq : Value → Value → Prop where
  | null : KeyPermEq Value.vnull Value.vnull
  | bool (b : Bool) : KeyPermEq (Value.vbool b) (Value.vbool b)
  | num (n : Int) : KeyPermEq (Value.vnum n) (Value.vnum n)
  | str (s : String) : KeyPermEq (Value.vstr s) (Value.vstr s)
  | arr {xs ys : List Value} (h : KeyPermEqList xs ys) :
      KeyPermEq (Value.varr xs) (Value.varr ys)
  | obj {fs gs hs : List (String × Value)} (hfg : KeyPermEqFields fs gs)
      (hperm : gs.Perm hs) : KeyPermEq (Value.vobj fs) (Value.vobj hs)

inductive KeyPermEqList : List Value → List Value → Prop where
  | nil : KeyPermEqList [] []
  | cons {x y : Value} {xs ys : List Value} (h : KeyPermEq x y)
      (t : KeyPermEqList xs ys) : KeyPermEqList (x :: xs) (y :: ys)

inductive KeyPermEqFields :
    List (String × Value) → List (String × Value) → Prop where
  | nil : KeyPermEqFields [] []
  | cons (k : String) {v w : Value} {fs gs : List (String × Value)}
      (h : KeyPermEq v w) (t : KeyPermEqFields fs gs) :
      KeyPermEqFields ((k, v) :: fs) ((k, w) :: gs)

end

mutual

/-- The exact tree `decode` rebuilds from the encoding of a good value:
object fields reorder to simple-then-complex, and schema-array elements take
the first element's key order. -/
def normalizeV : Value → Value
  | Value.vobj fs =>
    Value.vobj (fs.filter (fun p => !(isJsObject p.2)) ++ normFields fs)
  | Value.varr xs =>
    match xs with
    | x0 :: _ =>
      Value.varr (xs.map (fun x =>
        Value.vobj ((jsKeys x0).map (fun k => (k, (objGet x k).getD Value.vnull)))))
    | [] => Value.varr []
  | v => v

def normFields : List (String × Value) → List (String × Value)
  | [] => []
  | (k, v) :: t =>
    if isJsObject v then (k, normalizeV v) :: normFields t else normFields t

end

/-- The simple-pairs line of an object block. -/
def simplePairsLine (fs : List (String × Value)) (indent : Nat) : Chars :=
  twoSpaces indent ++ joinWith ' '
    ((fs.filter (fun p => !(isJsObject p.2))).map
      (fun p => p.1.data ++ ' ' :: formatValueL p.2))

/-- One row of a schema block. -/
def schemaRowLine (keys : List String) (indent : Nat) (item : Value) : Chars :=
  twoSpaces indent ++ "  ".data ++ joinWith ' ' (keys.map (fun k =>
    match objGet item k with
    | some w => formatValueL w
    | none => "undefined".data))

/-- The marker line of a schema block. -/
def markerLineOf (keys : List String) (indent : Nat) : Chars :=
  twoSpaces indent ++ "$S ".data ++ joinWith ' ' (keys.map (fun k => k.data))

mutual

/-- Proof-level helper: the flat list of text lines the encoder emits for a
good container (fuelled like `goodF`; the bridge lemma identifies
`encodeL` with the newline join of this list on the good domain). -/
def encLinesF : Nat → Value → Nat → List Chars
  | 0, _, _ => []
  | fuel + 1, v, d =>
    match v with
    | Value.vobj fs =>
      (if (fs.filter (fun p => !(isJsObject p.2))).isEmpty then []
       else [simplePairsLine fs d]) ++ blockLinesF fuel fs d
    | Value.varr xs =>
      match xs with
      | x0 :: _ =>
        markerLineOf (jsKeys x0) d :: xs.map (schemaRowLine (jsKeys x0) d)
      | [] => []
    | _ => []

def blockLinesF : Nat → List (String × Value) → Nat → List Chars
  | _, [], _ => []
  | fuel, (k, v) :: t, d =>
    if isJsObject v then
      (twoSpaces d ++ k.data) :: (encLinesF fuel v (d + 1) ++ blockLinesF fuel t d)
    else blockLinesF fuel t d

end

/-! Digit-printing lemmas. -/

lemma digitCh_isDigit {k : Nat} (h : k < 10) : isDigitC (digitCh k) = true := by
  interval_cases k <;> decide

lemma digitVal_digitCh {k : Nat} (h : k < 10) : digitVal (digitCh k) = k := by
  interval_cases k <;> decide

lemma digitsVal_append_one (ds : Chars) (c : Char) :
    digitsVal (ds ++ [c]) = 10 * digitsVal ds + digitVal c := by
  simp [digitsVal, List.foldl_append]

lemma natDigitsAux_spec :
    ∀ n fuel, n < fuel →
      natDigitsAux fuel n ≠ [] ∧ (natDigitsAux fuel n).all isDigitC = true ∧
      digitsVal (natDigitsAux fuel n) = n := by
  intro n
  induction n using Nat.strong_induction_on with
  | _ n ih =>
    intro fuel hf
    match fuel, hf with
    | fuel + 1, hf =>
      by_cases h10 : n < 10
      · simp only [natDigitsAux, if_pos h10]
        refine ⟨by simp, by simp [digitCh_isDigit h10], ?_⟩
        simp [digitsVal, digitVal_digitCh h10]
      · have hdiv : n / 10 < n := Nat.div_lt_self (by omega) (by omega)
        have ih1 := ih (n / 10) hdiv fuel (by omega)
        simp only [natDigitsAux, if_neg h10]
        refine ⟨by simp, ?_, ?_⟩
        · simp only [List.all_append, ih1.2.1, Bool.true_and, List.all_cons,
            List.all_nil, Bool.and_true]
          exact digitCh_isDigit (Nat.mod_lt _ (by omega))
        · rw [digitsVal_append_one, ih1.2.2, digitVal_digitCh (Nat.mod_lt _ (by omega))]
          omega

lemma natDigits_ne_nil (n : Nat) : natDigits n ≠ [] :=
  (natDigitsAux_spec n (n + 1) (by omega)).1

lemma natDigits_all_digits (n : Nat) : (natDigits n).all isDigitC = true :=
  (natDigitsAux_spec n (n + 1) (by omega)).2.1

lemma digitsVal_natDigits (n : Nat) : digitsVal (natDigits n) = n :=
  (natDigitsAux_spec n (n + 1) (by omega)).2.2

lemma isJsWs_cases {c : Char} (h : isJsWs c = true) :
    c = ' ' ∨ c = '\t' ∨ c = '\n' ∨ c = '\r' ∨ c = '\x0b' ∨ c = '\x0c' ∨
    c = '\u00a0' ∨ c = '\u1680' ∨ (8192 ≤ c.toNat ∧ c.toNat ≤ 8202) ∨
    c = '\u2028' ∨ c = '\u2029' ∨ c = '\u202f' ∨ c = '\u205f' ∨
    c = '\u3000' ∨ c = '\ufeff' := by
  simp only [isJsWs, Bool.or_eq_true, Bool.and_eq_true, decide_eq_true_eq] at h
  tauto

lemma isDigitC_not_ws {c : Char} (h : isDigitC c = true) : isJsWs c = false := by
  simp only [isDigitC, Bool.and_eq_true, decide_eq_true_eq] at h
  by_contra hws
  rw [Bool.not_eq_false] at hws
  rcases isJsWs_cases hws with
    rfl | rfl | rfl | rfl | rfl | rfl | rfl | rfl | hr | rfl | rfl | rfl | rfl | rfl | rfl
  all_goals first
  | exact absurd h (by decide)
  | omega

lemma numToChars_head_digit_or_minus (i : Int) :
    ∃ c, (numToChars i).head? = some c ∧ (isDigitC c = true ∨ c = '-') := by
  by_cases h : i < 0
  · exact ⟨'-', by simp [numToChars, h], Or.inr rfl⟩
  · obtain ⟨c, t, hct⟩ := List.exists_cons_of_ne_nil (natDigits_ne_nil i.toNat)
    refine ⟨c, ?_, Or.inl ?_⟩
    · simp [numToChars, h, hct]
    · have := natDigits_all_digits i.toNat
      rw [hct] at this
      simp only [List.all_cons, Bool.and_eq_true] at this
      exact this.1

/-! Claim-facing lemmas of the easy kind. -/

lemma encodeL_prim (v : Value) (indent : Nat) (h : isJsObject v = false) :
    encodeL v indent = [] := by
  cases v <;> simp_all [isJsObject, encodeL]

/-- C9: encoding a primitive or null yields the empty string (the source's
`result` array stays empty and joins to `''`), at any depth. -/
theorem c9_top_level_primitive_empty (v : Value) (indent : Nat)
    (h : isJsObject v = false) : encode v indent = "" := by
  rw [encode, encodeL_prim v indent h]

theorem c9_top_level_primitive_empty_witness :
    isJsObject (Value.vnum 5) = false ∧ encode (Value.vnum 5) 0 = "" :=
  ⟨rfl, c9_top_level_primitive_empty (Value.vnum 5) 0 rfl⟩

/-- C5: a string's token is the quote-wrapped form exactly when the string
contains a whitespace character, and the tokens of `null`, booleans and
numbers never begin with a double quote. -/
theorem c5_quoting_minimality :
    (∀ s : String,
      formatValueL (Value.vstr s) = '"' :: (s.data ++ ['"']) ↔
        s.data.any isJsWs = true) ∧
    ((formatValueL Value.vnull).headD '?' == '"') = false ∧
    (∀ b : Bool, ((formatValueL (Value.vbool b)).headD '?' == '"') = false) ∧
    (∀ n : Int, ((formatValueL (Value.vnum n)).headD '?' == '"') = false) := by
  refine ⟨?_, rfl, ?_, ?_⟩
  · intro s
    constructor
    · intro h
      by_contra hws
      simp only [Bool.not_eq_true] at hws
      rw [formatValueL, if_neg (by simp [hws])] at h
      have := congrArg List.length h
      simp at this
      omega
    · intro h
      rw [formatValueL, if_pos h]
  · intro b
    cases b <;> rfl
  · intro n
    obtain ⟨c, hc, hd⟩ := numToChars_head_digit_or_minus n
    have hh : (formatValueL (Value.vnum n)).headD '?' = c := by
      simp [formatValueL, List.headD_eq_head?_getD, hc]
    rw [hh]
    rcases hd with hd | hd
    · simp only [isDigitC, Bool.and_eq_true, decide_eq_true_eq] at hd
      simp only [beq_eq_false_iff_ne, ne_eq]
      rintro rfl
      exact absurd hd (by decide)
    · subst hd
      rfl

/-- C3 counterexample: an array of two arrays passes `hasUniformStructure`
(arrays are `typeof 'object'` and share the index keys `0`, `1`) although no
element is an `Object` of the data model. -/
theorem c3_counterexample :
    hasUniformStructure [Value.varr [Value.vnum 1, Value.vnum 2],
      Value.varr [Value.vnum 3, Value.vnum 4]] = true ∧
    ∀ v ∈ [Value.varr [Value.vnum 1, Value.vnum 2],
      Value.varr [Value.vnum 3, Value.vnum 4]], ¬ ∃ fs, v = Value.vobj fs := by
  refine ⟨rfl, ?_⟩
  intro v hv
  rintro ⟨fs, rfl⟩
  simp only [List.mem_cons, List.not_mem_nil, or_false] at hv
  rcases hv with hv | hv <;> exact Value.noConfusion hv

/-- C3 amended: `hasUniformStructure arr` is true exactly when `arr` is
non-empty and every element passes JavaScript's object test (arrays included,
with index strings as keys) with one shared sorted key list; in particular it
is false on the empty array and whenever some element is null or a
primitive. -/
theorem c3_uniform_detector_amended (arr : List Value) :
    hasUniformStructure arr = true ↔
      arr ≠ [] ∧ ∃ ks, ∀ v ∈ arr, isJsObject v = true ∧ sortKeys (jsKeys v) = ks := by
  cases arr with
  | nil => simp [hasUniformStructure]
  | cons x t =>
    simp only [hasUniformStructure]
    by_cases hx : isJsObject x
    · rw [if_neg (by simp [hx])]
      constructor
      · intro h
        refine ⟨by simp, sortKeys (jsKeys x), ?_⟩
        intro v hv
        rw [List.all_eq_true] at h
        have := h v hv
        simp only [Bool.and_eq_true, decide_eq_true_eq] at this
        exact this
      · rintro ⟨-, ks, hall⟩
        rw [List.all_eq_true]
        intro v hv
        have h1 := hall v hv
        have h2 := hall x (by simp)
        simp only [Bool.and_eq_true, decide_eq_true_eq]
        exact ⟨h1.1, by rw [h1.2, h2.2]⟩
    · rw [if_pos (by simp [hx])]
      constructor
      · intro h
        exact absurd h (by simp)
      · rintro ⟨-, ks, hall⟩
        exact absurd (hall x (by simp)).1 (by simp [hx])

/-- C6: decoding text whose lines are all blank — the empty string
included — yields `null`: the line filter leaves nothing and the parser's
base case returns `null` instead of failing. -/
theorem c6_blank_input_null (s : String)
    (h : ∀ l ∈ splitNl s.data, jsTrimL l = []) : decode s = Value.vnull := by
  have hlines : decodeLines s = [] := by
    rw [decodeLines, List.filter_eq_nil_iff]
    intro l hl
    simp [h l hl]
  rw [decode]
  rw [hlines]
  rfl

theorem c6_blank_input_null_witness :
    (∀ l ∈ splitNl "\n \n\t".data, jsTrimL l = []) ∧
      decode "\n \n\t" = Value.vnull := by
  refine ⟨by decide, c6_blank_input_null _ (by decide)⟩

/-! C10: the decoder's result shape. -/

/-- The three shapes `decode` can produce. -/
def DecShape (v : Value) : Prop :=
  v = Value.vnull ∨ (∃ fs, v = Value.vobj fs) ∨
    (∃ xs, v = Value.varr xs ∧ ∀ x ∈ xs, ∃ gs, x = Value.vobj gs)

lemma schemaRows_shape (keys : List String) (base : Int) :
    ∀ ls, ∀ x ∈ (schemaRows keys base ls).1, ∃ gs, x = Value.vobj gs := by
  intro ls
  induction ls with
  | nil => simp [schemaRows]
  | cons l rest ih =>
    simp only [schemaRows]
    by_cases h : getIndentL l ≤ base
    · simp [h]
    · rw [if_neg h]
      intro x hx
      simp only [List.mem_cons] at hx
      rcases hx with hx | hx
      · exact ⟨_, hx⟩
      · exact ih x hx

lemma parseSchemaL_shape (m : Chars) (rest : List Chars) :
    DecShape (parseSchemaL m rest).1 := by
  refine Or.inr (Or.inr ⟨_, rfl, ?_⟩)
  exact schemaRows_shape _ _ rest

lemma parseLinesF_shape :
    ∀ fuel ls, DecShape (parseLinesF fuel ls).1 ∧
      ∀ base obj ls2, DecShape (objLoopF fuel base obj ls2).1 := by
  intro fuel
  induction fuel with
  | zero =>
    intro ls
    exact ⟨Or.inl rfl, fun base obj ls2 => Or.inr (Or.inl ⟨obj, rfl⟩)⟩
  | succ fuel ih =>
    intro ls
    constructor
    · match ls with
      | [] => exact Or.inl rfl
      | l :: rest =>
        simp only [parseLinesF]
        by_cases h : startsWithMark (jsTrimL l)
        · rw [if_pos h]; exact parseSchemaL_shape l rest
        · rw [if_neg h]; exact (ih rest).2 _ _ _
    · intro base obj ls2
      match ls2 with
      | [] => exact Or.inr (Or.inl ⟨obj, rfl⟩)
      | l :: rest =>
        simp only [objLoopF]
        by_cases h1 : getIndentL l < base
        · rw [if_pos h1]; exact Or.inr (Or.inl ⟨obj, rfl⟩)
        · rw [if_neg h1]
          by_cases h2 : base < getIndentL l
          · rw [if_pos h2]; exact (ih rest).2 _ _ _
          · rw [if_neg h2]
            by_cases h3 : startsWithMark (jsTrimL l)
            · rw [if_pos h3]; exact parseSchemaL_shape l rest
            · rw [if_neg h3]
              by_cases h4 : isKeyValueLine (jsTrimL l)
              · rw [if_pos h4]; exact (ih rest).2 _ _ _
              · rw [if_neg h4]
                split
                · exact (ih []).2 _ _ _
                · split
                  · exact (ih []).2 _ _ _
                  · exact (ih []).2 _ _ _

/-- C10: `decode` only ever returns `null`, an object, or an array of
objects — never a top-level primitive; a lone-key line maps the whole
trimmed line to `null` and an even-token line becomes key/value pairs. -/
theorem c10_decoder_result_shape :
    (∀ s : String, DecShape (decode s)) ∧
    decode "a b c" = Value.vobj [("a b c", Value.vnull)] ∧
    decode "a 1" = Value.vobj [("a", Value.vnum 1)] := by
  refine ⟨?_, rfl, rfl⟩
  intro s
  exact (parseLinesF_shape _ _).1

/-- C8: the concrete schema scenario round trips exactly: encoding the
`users` object yields the four expected lines, and decoding that text
returns the original object on the nose (the decoder even restores the
original key order here). -/
theorem c8_concrete_schema_scenario :
    encode (Value.vobj [("users", Value.varr
      [Value.vobj [("id", Value.vnum 1), ("name", Value.vstr "Alice"),
        ("age", Value.vnum 30)],
       Value.vobj [("id", Value.vnum 2), ("name", Value.vstr "Bob"),
        ("age", Value.vnum 25)]])]) 0 =
      "users\n  $S id name age\n    1 Alice 30\n    2 Bob 25" ∧
    decode "users\n  $S id name age\n    1 Alice 30\n    2 Bob 25" =
      Value.vobj [("users", Value.varr
        [Value.vobj [("id", Value.vnum 1), ("name", Value.vstr "Alice"),
          ("age", Value.vnum 30)],
         Value.vobj [("id", Value.vnum 2), ("name", Value.vstr "Bob"),
          ("age", Value.vnum 25)]])] :=
  ⟨rfl, rfl⟩

/-! Value-parser round-trip on well-formed tokens (C4, shared with the
round-trip proof of C1). -/

lemma takeWhile_all_eq {p : Char → Bool} {l : Chars} (h : ∀ c ∈ l, p c = true) :
    l.takeWhile p = l := by
  induction l with
  | nil => rfl
  | cons a t ih =>
    rw [List.takeWhile_cons, if_pos (h a (by simp))]
    rw [ih (fun c hc => h c (by simp [hc]))]

lemma dropWhile_all_eq_nil {p : Char → Bool} {l : Chars} (h : ∀ c ∈ l, p c = true) :
    l.dropWhile p = [] := by
  induction l with
  | nil => rfl
  | cons a t ih =>
    rw [List.dropWhile_cons, if_pos (h a (by simp))]
    exact ih (fun c hc => h c (by simp [hc]))

lemma dropWhile_head_false {p : Char → Bool} {l : Chars}
    (h : ∀ c, l.head? = some c → p c = false) : l.dropWhile p = l := by
  cases l with
  | nil => rfl
  | cons a t => rw [List.dropWhile_cons, if_neg (by simp [h a rfl])]

/-- `trim` is the identity when both ends are not whitespace. -/
lemma jsTrimL_noop {s : Chars} (h1 : ∀ c, s.head? = some c → isJsWs c = false)
    (h2 : ∀ c, s.getLast? = some c → isJsWs c = false) : jsTrimL s = s := by
  rw [jsTrimL, dropWhile_head_false h1]
  rw [dropWhile_head_false (fun c hc => h2 c (by rwa [← List.head?_reverse]))]
  exact List.reverse_reverse s

lemma jsTrimL_noop_of_all {s : Chars} (h : ∀ c ∈ s, isJsWs c = false) :
    jsTrimL s = s :=
  jsTrimL_noop (fun c hc => h c (by exact List.mem_of_mem_head? hc))
    (fun c hc => h c (List.mem_of_mem_getLast? hc))

lemma parseDecMag_digits {s : Chars} (hne : s ≠ [])
    (hall : ∀ c ∈ s, isDigitC c = true) : parseDecMag s = some (digitsVal s) := by
  have hinf : s ≠ "Infinity".data := by
    intro h
    subst h
    exact absurd (hall 'I' (by decide)) (by decide)
  rw [parseDecMag, if_neg hinf]
  simp only [takeWhile_all_eq hall, dropWhile_all_eq_nil hall]
  rw [if_neg (by simpa using hne)]
  simp [decMagnitude, digitsVal]

lemma digit_ne_letters {x : Char} (hx : isDigitC x = true) :
    ((x = 'x' || x = 'X') = false) ∧ ((x = 'b' || x = 'B') = false) ∧
      ((x = 'o' || x = 'O') = false) := by
  simp only [isDigitC, Bool.and_eq_true, decide_eq_true_eq] at hx
  refine ⟨?_, ?_, ?_⟩ <;>
  · simp only [Bool.or_eq_false_iff, decide_eq_false_iff_not]
    constructor <;> (rintro rfl; revert hx; decide)

lemma jsParseNumber?_digits {s : Chars} (hne : s ≠ [])
    (hall : ∀ c ∈ s, isDigitC c = true) :
    jsParseNumber? s = some ((digitsVal s : Nat) : Int) := by
  have hdec := parseDecMag_digits hne hall
  unfold jsParseNumber?
  split
  · exact absurd rfl hne
  · next x rest =>
    have hx := hall x (by simp)
    obtain ⟨e1, e2, e3⟩ := digit_ne_letters hx
    rw [if_neg (by simp [e1]), if_neg (by simp [e2]), if_neg (by simp [e3])]
    rw [hdec]
    rfl
  · next t =>
    exact absurd (hall '+' (by simp)) (by decide)
  · next t =>
    exact absurd (hall '-' (by simp)) (by decide)
  · rw [hdec]
    rfl

lemma jsParseNumber?_numToChars (i : Int) :
    jsParseNumber? (numToChars i) = some i := by
  by_cases h : i < 0
  · rw [numToChars, if_pos h]
    have hall := natDigits_all_digits i.natAbs
    rw [List.all_eq_true] at hall
    have hd := parseDecMag_digits (natDigits_ne_nil i.natAbs)
      (fun c hc => hall c hc)
    rw [jsParseNumber?]
    rw [hd, digitsVal_natDigits]
    have hi : -((i.natAbs : Nat) : Int) = i := by omega
    show some (-((i.natAbs : Nat) : Int)) = some i
    rw [hi]
  · rw [numToChars, if_neg h]
    have hall := natDigits_all_digits i.toNat
    rw [List.all_eq_true] at hall
    rw [jsParseNumber?_digits (natDigits_ne_nil i.toNat) (fun c hc => hall c hc)]
    rw [digitsVal_natDigits]
    congr 1
    omega

/-- Characters of an integer token: digits, possibly a leading minus. -/
lemma numToChars_chars {i : Int} {c : Char} (hc : c ∈ numToChars i) :
    isDigitC c = true ∨ c = '-' := by
  by_cases h : i < 0
  · rw [numToChars, if_pos h] at hc
    rcases List.mem_cons.1 hc with rfl | hc
    · exact Or.inr rfl
    · have := natDigits_all_digits i.natAbs
      rw [List.all_eq_true] at this
      exact Or.inl (this c hc)
  · rw [numToChars, if_neg h] at hc
    have := natDigits_all_digits i.toNat
    rw [List.all_eq_true] at this
    exact Or.inl (this c hc)

lemma numToChars_not_ws {i : Int} {c : Char} (hc : c ∈ numToChars i) :
    isJsWs c = false := by
  rcases numToChars_chars hc with hd | rfl
  · exact isDigitC_not_ws hd
  · decide

lemma numToChars_head_ne_quote (i : Int) :
    ∀ c, (numToChars i).head? = some c → c ≠ '"' := by
  intro c hc
  rcases numToChars_chars (List.mem_of_mem_head? hc) with hd | rfl
  · rintro rfl
    exact absurd hd (by decide)
  · decide

lemma numToChars_ne_lit (i : Int) :
    numToChars i ≠ "true".data ∧ numToChars i ≠ "false".data ∧
      numToChars i ≠ "null".data := by
  refine ⟨?_, ?_, ?_⟩ <;>
  · intro h
    have : ('t' ∈ numToChars i) ∨ ('f' ∈ numToChars i) ∨ ('n' ∈ numToChars i) := by
      rw [h]
      simp
    rcases this with hm | hm | hm <;>
      rcases numToChars_chars hm with hd | hd <;>
        (simp_all; try exact absurd hd (by decide))

/-! Unfolding helpers for `parseValueL` outcomes. -/

lemma parseValueL_num {t : Chars} {n : Int} (htrim : jsTrimL t = t)
    (hq : (decide (t.head? = some '"') && decide (t.getLast? = some '"')) = false)
    (ht : t ≠ "true".data) (hf : t ≠ "false".data) (hn : t ≠ "null".data)
    (hnum : jsParseNumber? t = some n) : parseValueL t = Value.vnum n := by
  simp only [parseValueL]
  rw [htrim]
  rw [if_neg (by simp [hq]), if_neg ht, if_neg hf, if_neg hn, hnum]

lemma parseValueL_bare {t : Chars} (htrim : jsTrimL t = t)
    (hq : (decide (t.head? = some '"') && decide (t.getLast? = some '"')) = false)
    (ht : t ≠ "true".data) (hf : t ≠ "false".data) (hn : t ≠ "null".data)
    (hnum : jsParseNumber? t = none) :
    parseValueL t = Value.vstr (String.mk t) := by
  simp only [parseValueL]
  rw [htrim]
  rw [if_neg (by simp [hq]), if_neg ht, if_neg hf, if_neg hn, hnum]

lemma parseValueL_quoted (s : String) :
    parseValueL ('"' :: (s.data ++ ['"'])) = Value.vstr s := by
  have hshape : '"' :: (s.data ++ ['"']) = ('"' :: s.data) ++ ['"'] := by simp
  have hlast : ('"' :: (s.data ++ ['"'])).getLast? = some '"' := by
    rw [hshape]
    exact List.getLast?_concat _
  have htrim : jsTrimL ('"' :: (s.data ++ ['"'])) = '"' :: (s.data ++ ['"']) := by
    refine jsTrimL_noop (fun c hc => ?_) (fun c hc => ?_)
    · simp only [List.head?_cons, Option.some.injEq] at hc
      subst hc
      decide
    · rw [hlast] at hc
      cases hc
      decide
  simp only [parseValueL]
  rw [htrim]
  rw [if_pos (by simp [hlast])]
  congr 1
  simp only [List.drop_one, List.tail_cons]
  rw [List.dropLast_concat]

lemma string_eta (s : String) : String.mk s.data = s := rfl

/-- The shared token round trip: `parseValue (formatValue x) = x` for
`null`, booleans, numbers, whitespace-containing quote-free strings, and
bare strings that no parser rule reinterprets. -/
def goodPrimToken : Value → Bool
  | Value.vnull => true
  | Value.vbool _ => true
  | Value.vnum _ => true
  | Value.vstr s =>
    !(s.data.contains '"') &&
    (s.data.any isJsWs ||
      (!(s.data == "true".data) && !(s.data == "false".data) &&
       !(s.data == "null".data) && (jsParseNumber? s.data).isNone))
  | _ => false

lemma parse_format_token : ∀ {v : Value}, goodPrimToken v = true →
    parseValueL (formatValueL v) = v := by
  intro v h
  match v with
  | Value.vnull => rfl
  | Value.vbool true => rfl
  | Value.vbool false => rfl
  | Value.vnum n =>
    obtain ⟨c, hc, -⟩ := numToChars_head_digit_or_minus n
    have hqc : (decide ((numToChars n).head? = some '"') &&
        decide ((numToChars n).getLast? = some '"')) = false := by
      simp only [Bool.and_eq_false_iff, decide_eq_false_iff_not]
      left
      rw [hc]
      intro hcontra
      injection hcontra with hc2
      exact numToChars_head_ne_quote n c hc hc2
    exact parseValueL_num (jsTrimL_noop_of_all (fun c hc => numToChars_not_ws hc))
      hqc (numToChars_ne_lit n).1 (numToChars_ne_lit n).2.1 (numToChars_ne_lit n).2.2
      (jsParseNumber?_numToChars n)
  | Value.vstr s =>
    simp only [goodPrimToken, Bool.and_eq_true] at h
    obtain ⟨hq, hrest⟩ := h
    by_cases hws : s.data.any isJsWs = true
    · rw [formatValueL, if_pos hws]
      exact parseValueL_quoted s
    · rw [formatValueL, if_neg hws]
      rw [Bool.or_eq_true] at hrest
      rcases hrest with hrest | hrest
      · exact absurd hrest hws
      · simp only [Bool.and_eq_true, Bool.not_eq_true', beq_eq_false_iff_ne, ne_eq,
          Option.isNone_iff_eq_none] at hrest
        obtain ⟨⟨⟨ht, hf⟩, hn⟩, hnum⟩ := hrest
        have hnq : ∀ c ∈ s.data, c ≠ '"' := by
          intro c hcm
          rintro rfl
          simp only [Bool.not_eq_true'] at hq
          rw [List.contains_eq_any_beq] at hq
          simp only [List.any_eq_false] at hq
          have hfalse := hq '"' hcm
          simp at hfalse
        have hnows : ∀ c ∈ s.data, isJsWs c = false := by
          intro c hcm
          rw [Bool.not_eq_true] at hws
          rw [List.any_eq_false] at hws
          simpa using hws c hcm
        have hqc : (decide (s.data.head? = some '"') &&
            decide (s.data.getLast? = some '"')) = false := by
          simp only [Bool.and_eq_false_iff, decide_eq_false_iff_not]
          left
          intro hchead
          exact hnq '"' (List.mem_of_mem_head? hchead) rfl
        rw [parseValueL_bare (jsTrimL_noop_of_all hnows) hqc ht hf hn hnum]

/-- C4 counterexample: the string `"true"` contains no double quote, yet
`parseValue(formatValue("true"))` is the boolean `true`, not the string. -/
theorem c4_counterexample :
    parseValueL (formatValueL (Value.vstr "true")) = Value.vbool true ∧
      Value.vbool true ≠ Value.vstr "true" :=
  ⟨rfl, fun h => Value.noConfusion h⟩

/-- C4 amended: `parseValue (formatValue x) = x` for every primitive `x`
without a double-quote character, provided that a string without whitespace
(hence emitted bare) is additionally not a token the parser reinterprets:
not `true`, `false` or `null`, and not accepted by the parser's number
test. -/
theorem c4_format_parse_idempotent (v : Value) (h : goodPrimToken v = true) :
    parseValueL (formatValueL v) = v :=
  parse_format_token h

theorem c4_format_parse_idempotent_witness :
    goodPrimToken (Value.vstr "hello world") = true ∧
      parseValueL (formatValueL (Value.vstr "hello world")) =
        Value.vstr "hello world" :=
  ⟨rfl, c4_format_parse_idempotent (Value.vstr "hello world") rfl⟩

/-! C7: schema-block parsing. -/

lemma schemaRows_split (keys : List String) (base : Int) (rows post : List Chars)
    (h1 : ∀ r ∈ rows, base < getIndentL r)
    (h2 : ∀ l, post.head? = some l → getIndentL l ≤ base) :
    schemaRows keys base (rows ++ post) =
      (rows.map (fun r => schemaRow keys (tokenizeL (jsTrimL r))), post) := by
  induction rows with
  | nil =>
    cases post with
    | nil => rfl
    | cons l t =>
      simp only [List.nil_append, schemaRows]
      rw [if_pos (h2 l rfl)]
      rfl
  | cons r rest ih =>
    simp only [List.cons_append, schemaRows]
    rw [if_neg (by simpa using h1 r (by simp))]
    rw [show rest.append post = rest ++ post from rfl, ih (fun x hx => h1 x (by simp [hx]))]
    rfl

/-- C7: on a block whose first line is the `$S` marker, every following line
strictly deeper than the marker becomes one row object — tokens zipped
positionally against the marker's key list by `schemaRow`, which drops extra
tokens and leaves missing keys unset with no error — and consumption stops
at the first line at or above the marker's indent, yielding the array of row
objects and that remainder. -/
theorem c7_schema_block_parsing (m : Chars) (rows post : List Chars)
    (h1 : ∀ r ∈ rows, getIndentL m < getIndentL r)
    (h2 : ∀ l, post.head? = some l → getIndentL l ≤ getIndentL m) :
    parseSchemaL m (rows ++ post) =
      (Value.varr (rows.map (fun r =>
        schemaRow (markerKeys m) (tokenizeL (jsTrimL r)))), post) := by
  rw [parseSchemaL]
  rw [schemaRows_split (markerKeys m) (getIndentL m) rows post h1 h2]

theorem c7_schema_block_parsing_witness :
    (∀ r ∈ ["      1 2 3".data], getIndentL "$S a b".data < getIndentL r) ∧
    parseSchemaL "$S a b".data ("      1 2 3".data :: ["z 9".data]) =
      (Value.varr [Value.vobj [("a", Value.vnum 1), ("b", Value.vnum 2)]],
        ["z 9".data]) := by
  refine ⟨by decide, ?_⟩
  have h := c7_schema_block_parsing "$S a b".data ["      1 2 3".data] ["z 9".data]
    (by decide) (by decide)
  rw [show ("      1 2 3".data :: ["z 9".data]) =
    ["      1 2 3".data] ++ ["z 9".data] from rfl, h]
  rfl

/-! C2: the schema-trigger threshold, read off the emitted text. -/

/-- First line of an encoded text (head of the decoder's line split). -/
def firstLineOf (s : Chars) : Chars := (splitNl s).headD []

/-- Does the emitted text begin with a `$S` marker line (its first line,
after the leading indent spaces, starts with `$S `)? -/
def beginsWithMarker (s : String) : Bool :=
  startsWithMark ((firstLineOf s.data).dropWhile (fun c => c = ' '))

lemma splitNl_ne_nil (l : Chars) : splitNl l ≠ [] := by
  cases l with
  | nil => simp [splitNl]
  | cons c rest =>
    rw [splitNl]
    split
    · simp
    · cases h : splitNl rest <;> simp

lemma firstLineOf_cons (c : Char) (l : Chars) (hc : c ≠ '\n') :
    firstLineOf (c :: l) = c :: firstLineOf l := by
  rw [firstLineOf, splitNl, if_neg hc]
  obtain ⟨a, t, ha⟩ := List.exists_cons_of_ne_nil (splitNl_ne_nil l)
  rw [ha, firstLineOf, ha]
  rfl

lemma firstLineOf_newline (l : Chars) : firstLineOf ('\n' :: l) = [] := by
  rw [firstLineOf, splitNl, if_pos rfl]
  rfl

lemma firstLineOf_append_of_no_nl (a b : Chars) (ha : '\n' ∉ a) :
    firstLineOf (a ++ b) = a ++ firstLineOf b := by
  induction a with
  | nil => rfl
  | cons c t ih =>
    have hc : c ≠ '\n' := fun h => ha (by simp [h])
    rw [List.cons_append, firstLineOf_cons c _ hc, ih (fun h => ha (by simp [h]))]
    rfl

lemma firstLineOf_append_nl (a b : Chars) :
    firstLineOf (a ++ '\n' :: b) = firstLineOf a := by
  induction a with
  | nil => exact firstLineOf_newline b
  | cons c t ih =>
    by_cases hc : c = '\n'
    · subst hc
      rw [List.cons_append, firstLineOf_newline, firstLineOf_newline]
    · rw [List.cons_append, firstLineOf_cons c _ hc, ih, firstLineOf_cons c _ hc]

lemma firstLineOf_no_nl (a : Chars) (ha : '\n' ∉ a) : firstLineOf a = a := by
  induction a with
  | nil => rfl
  | cons c t ih =>
    rw [firstLineOf_cons c t (fun h => ha (by simp [h])),
      ih (fun h => ha (by simp [h]))]

/-- A token that cannot begin a marker line: not the bare `$S`, and if it
starts with `$` it contains no space and no newline. -/
def TokOk (t : Chars) : Prop :=
  t ≠ ['$', 'S'] ∧ ∀ tl, t = '$' :: tl → (' ' ∉ tl ∧ '\n' ∉ tl)

lemma startsWithMark_nil : startsWithMark [] = false := rfl

lemma startsWithMark_one (c : Char) : startsWithMark [c] = false := by
  simp only [startsWithMark, decide_eq_false_iff_not]
  intro h
  exact absurd (congrArg List.length h) (by simp)

lemma startsWithMark_first (c : Char) (l : Chars) (hc : c ≠ '$') :
    startsWithMark (c :: l) = false := by
  simp only [startsWithMark, List.take_cons, decide_eq_false_iff_not]
  intro h
  exact hc (by injection h)

lemma startsWithMark_second (c d : Char) (l : Chars) (hd : d ≠ 'S') :
    startsWithMark (c :: d :: l) = false := by
  simp only [startsWithMark, List.take_cons, decide_eq_false_iff_not]
  intro h
  injection h with h1 h2
  injection h2 with h3
  exact hd h3

lemma startsWithMark_third (c d e : Char) (l : Chars) (he : e ≠ ' ') :
    startsWithMark (c :: d :: e :: l) = false := by
  simp only [startsWithMark, List.take_cons, decide_eq_false_iff_not]
  intro h
  injection h with h1 h2
  injection h2 with h3 h4
  injection h4 with h5
  exact he h5

lemma mark_false_tok_sep (t tail : Chars) (hne : t ≠ []) (hok : TokOk t)
    (hh : ∀ c, t.head? = some c → (c ≠ ' ' ∧ c ≠ '\n'))
    (htail : tail = [] ∨ tail.head? = some ' ') :
    startsWithMark ((firstLineOf (t ++ tail)).dropWhile (fun c => c = ' ')) = false := by
  obtain ⟨c, tl, rfl⟩ := List.exists_cons_of_ne_nil hne
  obtain ⟨hcsp, hcnl⟩ := hh c rfl
  by_cases hdollar : c = '$'
  · subst hdollar
    obtain ⟨hsp, hnl⟩ := hok.2 tl rfl
    have hnl2 : '\n' ∉ '$' :: tl := by simp [hnl]
    rw [firstLineOf_append_of_no_nl _ _ hnl2]
    rw [dropWhile_head_false (fun d hd => by
      injection hd with hd
      subst hd
      decide)]
    rcases tl with - | ⟨d, tl2⟩
    · rcases htail with rfl | hsome
      · exact startsWithMark_one '$'
      · obtain ⟨x, xt, rfl⟩ := List.exists_cons_of_ne_nil
          (show tail ≠ [] by rintro rfl; simp at hsome)
        injection hsome with hsome
        subst hsome
        rw [firstLineOf_cons ' ' xt (by decide)]
        exact startsWithMark_second '$' ' ' _ (by decide)
    · by_cases hdS : d = 'S'
      · subst hdS
        rcases tl2 with - | ⟨x, tl3⟩
        · exact absurd rfl hok.1
        · have hx : x ≠ ' ' := fun h => hsp (by simp [h])
          exact startsWithMark_third '$' 'S' x _ hx
      · exact startsWithMark_second '$' d _ hdS
  · by_cases hcnl2 : c = '\n'
    · exact absurd hcnl2 hcnl
    · rw [List.cons_append, firstLineOf_cons c _ hcnl2]
      rw [dropWhile_head_false (fun d hd => by
        injection hd with hd
        subst hd
        simp [hcsp])]
      exact startsWithMark_first c _ hdollar

lemma dropWhile_sp_replicate (m : Nat) (l : Chars) :
    (List.replicate m ' ' ++ l).dropWhile (fun c => c = ' ') =
      l.dropWhile (fun c => c = ' ') := by
  induction m with
  | zero => rfl
  | succ n ih =>
    rw [List.replicate_succ, List.cons_append, List.dropWhile_cons,
      if_pos (by decide)]
    exact ih

lemma mark_false_join (ts : List Chars)
    (h : ∀ t ∈ ts, TokOk t ∧ ∀ c, t.head? = some c → (c ≠ ' ' ∧ c ≠ '\n')) :
    startsWithMark ((firstLineOf (joinWith ' ' ts)).dropWhile
      (fun c => c = ' ')) = false := by
  induction ts with
  | nil => rfl
  | cons t rest ih =>
    cases rest with
    | nil =>
      rcases List.eq_nil_or_concat t with rfl | -
      · rfl
      · by_cases hne : t = []
        · subst hne; rfl
        · have := h t (by simp)
          simpa using mark_false_tok_sep t [] hne this.1 this.2 (Or.inl rfl)
    | cons r2 rest2 =>
      rw [joinWith]
      by_cases hne : t = []
      · subst hne
        rw [List.nil_append, firstLineOf_cons ' ' _ (by decide)]
        rw [List.dropWhile_cons, if_pos (by decide)]
        exact ih (fun x hx => h x (by simp [hx]))
      · have := h t (by simp)
        exact mark_false_tok_sep t (' ' :: joinWith ' ' (r2 :: rest2)) hne
          this.1 this.2 (Or.inr rfl)

lemma tokOk_of_head_ne {t : Chars} (hd : t.head? ≠ some '$')
    (hne2 : t ≠ ['$', 'S']) : TokOk t := by
  refine ⟨hne2, fun tl h => ?_⟩
  rw [h] at hd
  exact absurd rfl hd

/-- Token facts for a formatted primitive that is not the string `$S`. -/
lemma formatTokFacts (v : Value) (hprim : isJsObject v = false)
    (hnS : v ≠ Value.vstr (String.mk ['$', 'S'])) :
    TokOk (formatValueL v) ∧
      ∀ c, (formatValueL v).head? = some c → (c ≠ ' ' ∧ c ≠ '\n') := by
  match v with
  | Value.vnull =>
    exact ⟨tokOk_of_head_ne (by decide) (by decide), by decide⟩
  | Value.vbool true =>
    exact ⟨tokOk_of_head_ne (by decide) (by decide), by decide⟩
  | Value.vbool false =>
    exact ⟨tokOk_of_head_ne (by decide) (by decide), by decide⟩
  | Value.vnum n =>
    obtain ⟨c, hc, hcd⟩ := numToChars_head_digit_or_minus n
    have hfacts : c ≠ '$' ∧ c ≠ ' ' ∧ c ≠ '\n' := by
      rcases hcd with hd | rfl
      · simp only [isDigitC, Bool.and_eq_true, decide_eq_true_eq] at hd
        refine ⟨?_, ?_, ?_⟩ <;> (rintro rfl; revert hd; decide)
      · refine ⟨by decide, by decide, by decide⟩
    have hfv : formatValueL (Value.vnum n) = numToChars n := rfl
    constructor
    · refine tokOk_of_head_ne ?_ ?_
      · rw [hfv, hc]
        intro hcontra
        injection hcontra with hcontra
        exact hfacts.1 hcontra
      · rw [hfv]
        intro hcontra
        rw [hcontra] at hc
        injection hc with hc
        exact hfacts.1 hc.symm
    · intro d hd
      rw [hfv, hc] at hd
      injection hd with hd
      subst hd
      exact hfacts.2
  | Value.vstr s =>
    by_cases hws : s.data.any isJsWs = true
    · have hfv : formatValueL (Value.vstr s) = '"' :: (s.data ++ ['"']) := by
        rw [formatValueL, if_pos hws]
      rw [hfv]
      refine ⟨tokOk_of_head_ne (t := '"' :: (s.data ++ ['"']))
        (fun h => by injection h with h; exact absurd h (by decide))
        (by simp), ?_⟩
      intro c hc
      injection hc with hc
      subst hc
      exact ⟨by decide, by decide⟩
    · have hfv : formatValueL (Value.vstr s) = s.data := by
        rw [formatValueL, if_neg hws]
      rw [hfv]
      have hnows : ∀ c ∈ s.data, isJsWs c = false := by
        rw [Bool.not_eq_true, List.any_eq_false] at hws
        intro c hc
        simpa using hws c hc
      constructor
      · refine ⟨fun hcontra => hnS ?_, fun tl htl => ⟨fun hsp => ?_, fun hnl => ?_⟩⟩
        · rw [show Value.vstr s = Value.vstr (String.mk s.data) from rfl, hcontra]
        · exact absurd (hnows ' ' (by rw [htl]; simp [hsp])) (by decide)
        · exact absurd (hnows '\n' (by rw [htl]; simp [hnl])) (by decide)
      · intro c hc
        have := hnows c (List.mem_of_mem_head? hc)
        exact ⟨fun h => by subst h; exact absurd this (by decide),
          fun h => by subst h; exact absurd this (by decide)⟩

/-- Token facts for a key that is non-empty, whitespace-free and free of the
marker sequence. -/
lemma keyTokFacts (k : String) (_h1 : k.data ≠ [])
    (h2 : ∀ c ∈ k.data, isJsWs c = false) (h3 : containsMark k.data = false) :
    TokOk k.data ∧ ∀ c, k.data.head? = some c → (c ≠ ' ' ∧ c ≠ '\n') := by
  constructor
  · refine ⟨fun hcontra => ?_, fun tl htl => ⟨fun hsp => ?_, fun hnl => ?_⟩⟩
    · rw [hcontra] at h3
      exact absurd h3 (by decide)
    · exact absurd (h2 ' ' (by rw [htl]; simp [hsp])) (by decide)
    · exact absurd (h2 '\n' (by rw [htl]; simp [hnl])) (by decide)
  · intro c hc
    have := h2 c (List.mem_of_mem_head? hc)
    exact ⟨fun h => by subst h; exact absurd this (by decide),
      fun h => by subst h; exact absurd this (by decide)⟩

lemma mem_joinWith {c : Char} {sep : Char} :
    ∀ {ls : List Chars}, c ∈ joinWith sep ls → c = sep ∨ ∃ l ∈ ls, c ∈ l := by
  intro ls
  induction ls with
  | nil => intro h; simp [joinWith] at h
  | cons t rest ih =>
    cases rest with
    | nil =>
      intro h
      rw [joinWith] at h
      exact Or.inr ⟨t, by simp, h⟩
    | cons r2 rest2 =>
      intro h
      rw [joinWith] at h
      rcases List.mem_append.1 h with h | h
      · exact Or.inr ⟨t, by simp, h⟩
      · rcases List.mem_cons.1 h with rfl | h
        · exact Or.inl rfl
        · rcases ih h with h | ⟨l, hl, hcl⟩
          · exact Or.inl h
          · exact Or.inr ⟨l, by simp [List.mem_cons.1 hl], hcl⟩

lemma firstLineOf_joinNl_head (a : Chars) (rest : List Chars) :
    firstLineOf (joinWith '\n' (a :: rest)) = firstLineOf a := by
  cases rest with
  | nil => rfl
  | cons r2 rest2 =>
    rw [joinWith]
    exact firstLineOf_append_nl a _

lemma no_nl_twoSpaces (i : Nat) : '\n' ∉ twoSpaces i := by
  intro h
  rw [twoSpaces] at h
  exact absurd (List.eq_of_mem_replicate h) (by decide)

lemma encodeBlocks_shape (fs : List (String × Value)) (i : Nat) :
    encodeBlocks fs i = [] ∨ ∃ k v rest2, (k, v) ∈ fs ∧
      encodeBlocks fs i = (twoSpaces i ++ k.data) :: rest2 := by
  induction fs with
  | nil => exact Or.inl rfl
  | cons p t ih =>
    obtain ⟨k, v⟩ := p
    by_cases hv : isJsObject v
    · exact Or.inr ⟨k, v, _, by simp, by rw [encodeBlocks, if_pos hv]⟩
    · rcases ih with h0 | ⟨k2, v2, rest2, hmem, heq⟩
      · exact Or.inl (by rw [encodeBlocks, if_neg hv, h0])
      · exact Or.inr ⟨k2, v2, rest2, by simp [hmem],
          by rw [encodeBlocks, if_neg hv, heq]⟩

/-- Elements under which the marker test is exact: not the literal string
`$S`, not a nested array, and object keys that respect §3's key invariant
(non-empty, whitespace-free, no marker sequence). -/
def elemOkC2 : Value → Bool
  | Value.vstr s => !(decide (s.data = ['$', 'S']))
  | Value.varr _ => false
  | Value.vobj fs => fs.all (fun p =>
      !p.1.data.isEmpty && !(p.1.data.any isJsWs) && !(containsMark p.1.data))
  | _ => true

lemma elemOk_key_facts {fs : List (String × Value)}
    (h : elemOkC2 (Value.vobj fs) = true) {k : String} {v : Value}
    (hmem : (k, v) ∈ fs) :
    k.data ≠ [] ∧ (∀ c ∈ k.data, isJsWs c = false) ∧
      containsMark k.data = false := by
  rw [elemOkC2, List.all_eq_true] at h
  have h2 := h (k, v) hmem
  simp only [Bool.and_eq_true, Bool.not_eq_true'] at h2
  refine ⟨?_, ?_, h2.2⟩
  · intro hnil
    rw [hnil] at h2
    exact absurd h2.1.1 (by decide)
  · intro c hc
    have h3 := h2.1.2
    rw [List.any_eq_false] at h3
    simpa using h3 c hc

lemma elemOk_not_markstr {v : Value} (h : elemOkC2 v = true) :
    v ≠ Value.vstr (String.mk ['$', 'S']) := by
  rintro rfl
  simp [elemOkC2] at h

/-- C2 counterexample: the two-element array of the bare strings `$S` and
`x` is not uniform (its elements are primitives), yet its encoding is the
single line `$S x`, which begins with the schema marker. -/
theorem c2_counterexample :
    beginsWithMarker (encode (Value.varr [Value.vstr "$S", Value.vstr "x"]) 0) =
      true ∧
    ¬(1 < ([Value.vstr "$S", Value.vstr "x"] : List Value).length ∧
      hasUniformStructure [Value.vstr "$S", Value.vstr "x"] = true) := by
  exact ⟨rfl, by intro h; exact absurd h.2 (by decide)⟩

/-- C2 amended: for an array whose elements are not the literal string
`$S`, not nested arrays, and whose object elements have §3-conformant keys,
the emitted text begins with a `$S` marker line exactly when the array has
length above one and uniform structure.  (Without those provisos the right
to left direction still holds, but the encoding of, e.g.,
`["$S", "x"]` or `[[(x,1)],[(x,2)]] :: null` spuriously begins with a
marker line, as the counterexample shows.) -/
theorem c2_schema_trigger_amended (xs : List Value) (indent : Nat)
    (h : ∀ v ∈ xs, elemOkC2 v = true) :
    beginsWithMarker (encode (Value.varr xs) indent) = true ↔
      (1 < xs.length ∧ hasUniformStructure xs = true) := by
  have hdata : (encode (Value.varr xs) indent).data = encodeL (Value.varr xs) indent := rfl
  rw [beginsWithMarker, hdata]
  by_cases hcond : (decide (1 < xs.length) && hasUniformStructure xs) = true
  · simp only [Bool.and_eq_true, decide_eq_true_eq] at hcond
    refine ⟨fun _ => hcond, fun _ => ?_⟩
    rw [encodeL, if_pos (by simp [hcond.1, hcond.2])]
    obtain ⟨x0, xr, rfl⟩ := List.exists_cons_of_ne_nil
      (show xs ≠ [] by rintro rfl; exact absurd hcond.1 (by decide))
    have hobj : isJsObject x0 = true := by
      by_contra hno
      rw [hasUniformStructure, if_pos (by simpa using hno)] at hcond
      exact absurd hcond.2 (by decide)
    obtain ⟨fs0, rfl⟩ : ∃ fs0, x0 = Value.vobj fs0 := by
      match x0, hobj with
      | Value.varr l, _ =>
        have hv := h (Value.varr l) (by simp)
        simp [elemOkC2] at hv
      | Value.vobj fs0, _ => exact ⟨fs0, rfl⟩
    have hkeys : ∀ c ∈ joinWith ' '
        ((jsKeys (Value.vobj fs0)).map (fun k => k.data)), c ≠ '\n' := by
      intro c hc
      rcases mem_joinWith hc with rfl | ⟨l, hl, hcl⟩
      · decide
      · obtain ⟨k, hk, rfl⟩ := List.mem_map.1 hl
        rw [jsKeys] at hk
        obtain ⟨⟨k2, v2⟩, hk2, rfl⟩ := List.mem_map.1 hk
        obtain ⟨-, hno, -⟩ := elemOk_key_facts (h _ (by simp)) hk2
        intro hceq
        subst hceq
        exact absurd (hno '\n' hcl) (by decide)
    simp only [encodeWithSchemaL]
    have hshape : twoSpaces indent ++ ("$S ".data ++ joinWith ' '
          ((jsKeys ((Value.vobj fs0 :: xr).headD Value.vnull)).map (fun k => k.data))) ++
        '\n' :: joinWith '\n' ((Value.vobj fs0 :: xr).map (fun item =>
          twoSpaces indent ++ "  ".data ++ joinWith ' '
            ((jsKeys ((Value.vobj fs0 :: xr).headD Value.vnull)).map (fun k =>
              match objGet item k with
              | some w => formatValueL w
              | none => "undefined".data)))) =
        twoSpaces indent ++ (("$S ".data ++ joinWith ' '
          ((jsKeys (Value.vobj fs0)).map (fun k => k.data))) ++
          '\n' :: joinWith '\n' ((Value.vobj fs0 :: xr).map (fun item =>
            twoSpaces indent ++ "  ".data ++ joinWith ' '
              ((jsKeys (Value.vobj fs0)).map (fun k =>
                match objGet item k with
                | some w => formatValueL w
                | none => "undefined".data))))) := by
      simp
    rw [hshape]
    rw [firstLineOf_append_of_no_nl _ _ (no_nl_twoSpaces indent)]
    rw [show ("$S ".data ++ joinWith ' '
        ((jsKeys (Value.vobj fs0)).map (fun k => k.data))) ++
        '\n' :: joinWith '\n' ((Value.vobj fs0 :: xr).map (fun item =>
          twoSpaces indent ++ "  ".data ++ joinWith ' '
            ((jsKeys (Value.vobj fs0)).map (fun k =>
              match objGet item k with
              | some w => formatValueL w
              | none => "undefined".data)))) =
        ("$S ".data ++ joinWith ' '
          ((jsKeys (Value.vobj fs0)).map (fun k => k.data))) ++
        '\n' :: joinWith '\n' ((Value.vobj fs0 :: xr).map (fun item =>
          twoSpaces indent ++ "  ".data ++ joinWith ' '
            ((jsKeys (Value.vobj fs0)).map (fun k =>
              match objGet item k with
              | some w => formatValueL w
              | none => "undefined".data)))) from rfl]
    rw [firstLineOf_append_nl]
    rw [firstLineOf_no_nl _ (by
      intro hmem
      rcases List.mem_append.1 hmem with hmem | hmem
      · exact absurd hmem (by decide)
      · exact hkeys '\n' hmem rfl)]
    rw [twoSpaces, dropWhile_sp_replicate]
    rw [dropWhile_head_false (fun c hc => by
      simp only [List.cons_append, List.head?_cons, Option.some.injEq] at hc
      subst hc
      decide)]
    rfl
  · have hrhs : ¬(1 < xs.length ∧ hasUniformStructure xs = true) := by
      intro hx
      exact hcond (by simp [hx.1, hx.2])
    refine ⟨fun hmark => ?_, fun hx => absurd hx hrhs⟩
    exfalso
    rw [encodeL, if_neg hcond] at hmark
    by_cases hall : xs.all (fun item => !(isJsObject item)) = true
    · rw [if_pos hall] at hmark
      rw [firstLineOf_append_of_no_nl _ _ (no_nl_twoSpaces indent),
        twoSpaces, dropWhile_sp_replicate] at hmark
      rw [mark_false_join (xs.map formatValueL) ?_] at hmark
      · exact Bool.false_ne_true hmark
      · intro t ht
        obtain ⟨v, hv, rfl⟩ := List.mem_map.1 ht
        rw [List.all_eq_true] at hall
        exact formatTokFacts v (by simpa using hall v hv)
          (elemOk_not_markstr (h v hv))
    · rw [if_neg hall] at hmark
      obtain ⟨x0, xr, rfl⟩ := List.exists_cons_of_ne_nil
        (show xs ≠ [] by rintro rfl; simp at hall)
      rw [encodeEach, firstLineOf_joinNl_head] at hmark
      have helem := h x0 (by simp)
      have hfalse : startsWithMark ((firstLineOf (encodeL x0 indent)).dropWhile
          (fun c => c = ' ')) = false := by
        match x0, helem with
        | Value.varr l, helem => simp [elemOkC2] at helem
        | Value.vnull, _ => rfl
        | Value.vbool b, _ => rw [encodeL_prim _ _ (by rfl)]; rfl
        | Value.vnum n, _ => rw [encodeL_prim _ _ (by rfl)]; rfl
        | Value.vstr s, _ => rw [encodeL_prim _ _ (by rfl)]; rfl
        | Value.vobj fs, helem =>
          simp only [encodeL]
          by_cases hsimp : (fs.filter (fun p => !(isJsObject p.2))).isEmpty = true
          · rw [if_pos hsimp, List.nil_append]
            rcases encodeBlocks_shape fs indent with h0 | ⟨k, v, rest2, hmem, heq⟩
            · rw [h0]; rfl
            · rw [heq, firstLineOf_joinNl_head]
              obtain ⟨hk1, hk2, hk3⟩ := elemOk_key_facts helem hmem
              have := mark_false_tok_sep k.data [] hk1
                (keyTokFacts k hk1 hk2 hk3).1 (keyTokFacts k hk1 hk2 hk3).2
                (Or.inl rfl)
              rw [List.append_nil] at this
              rw [firstLineOf_append_of_no_nl _ _ (no_nl_twoSpaces indent),
                twoSpaces, dropWhile_sp_replicate]
              exact this
          · rw [if_neg hsimp, List.cons_append, firstLineOf_joinNl_head]
            obtain ⟨⟨k1, v1⟩, srest, hsrest⟩ := List.exists_cons_of_ne_nil
              (show fs.filter (fun p => !(isJsObject p.2)) ≠ [] by
                simpa [List.isEmpty_iff] using hsimp)
            have hmem1 : (k1, v1) ∈ fs :=
              List.mem_of_mem_filter (by rw [hsrest]; simp)
            obtain ⟨hk1, hk2, hk3⟩ := elemOk_key_facts helem hmem1
            rw [firstLineOf_append_of_no_nl _ _ (no_nl_twoSpaces indent),
              twoSpaces, dropWhile_sp_replicate]
            rw [hsrest]
            cases hmap : srest.map (fun p => p.1.data ++ ' ' :: formatValueL p.2) with
            | nil =>
              rw [List.map_cons, hmap, joinWith]
              exact mark_false_tok_sep k1.data (' ' :: formatValueL v1) hk1
                (keyTokFacts k1 hk1 hk2 hk3).1 (keyTokFacts k1 hk1 hk2 hk3).2
                (Or.inr rfl)
            | cons e2 erest =>
              rw [List.map_cons, hmap, joinWith]
              rw [show (k1.data ++ ' ' :: formatValueL v1) ++
                  ' ' :: joinWith ' ' (e2 :: erest) =
                  k1.data ++ ' ' :: (formatValueL v1 ++
                    ' ' :: joinWith ' ' (e2 :: erest)) by simp]
              exact mark_false_tok_sep k1.data
                (' ' :: (formatValueL v1 ++ ' ' :: joinWith ' ' (e2 :: erest)))
                hk1 (keyTokFacts k1 hk1 hk2 hk3).1
                (keyTokFacts k1 hk1 hk2 hk3).2 (Or.inr rfl)
      rw [hfalse] at hmark
      exact Bool.false_ne_true hmark

theorem c2_schema_trigger_amended_witness :
    (∀ v ∈ [Value.vobj [("a", Value.vnum 1)], Value.vobj [("a", Value.vnum 2)]],
      elemOkC2 v = true) ∧
    (beginsWithMarker (encode (Value.varr
        [Value.vobj [("a", Value.vnum 1)], Value.vobj [("a", Value.vnum 2)]]) 0) =
        true ↔
      (1 < ([Value.vobj [("a", Value.vnum 1)],
          Value.vobj [("a", Value.vnum 2)]] : List Value).length ∧
        hasUniformStructure [Value.vobj [("a", Value.vnum 1)],
          Value.vobj [("a", Value.vnum 2)]] = true)) :=
  ⟨by decide, c2_schema_trigger_amended _ 0 (by decide)⟩

/-! Tokenizer round trip on well-formed tokens. -/

/-- A token the tokenizer reproduces: bare (no space, no quote) or a
quote-delimited span with no interior quote. -/
def WfTok (t : Chars) : Prop :=
  (t ≠ [] ∧ ' ' ∉ t ∧ '"' ∉ t) ∨ (∃ mid, t = '"' :: (mid ++ ['"']) ∧ '"' ∉ mid)

lemma tokGo_bare (b : Chars) (hsp : ' ' ∉ b) (hq : '"' ∉ b) (s cur : Chars) :
    tokGo (b ++ s) cur false = tokGo s (cur ++ b) false := by
  induction b generalizing cur with
  | nil => rw [List.nil_append, List.append_nil]
  | cons c t ih =>
    rw [List.cons_append, tokGo]
    rw [if_neg (fun h => hq (by simp [h]))]
    rw [if_neg (by
      intro hcontra
      simp only [Bool.not_false, Bool.and_true, decide_eq_true_eq] at hcontra
      exact hsp (by simp [hcontra]))]
    rw [ih (fun h => hsp (by simp [h])) (fun h => hq (by simp [h]))]
    simp

lemma tokGo_quoted_mid (mid : Chars) (hq : '"' ∉ mid) (s cur : Chars) :
    tokGo (mid ++ s) cur true = tokGo s (cur ++ mid) true := by
  induction mid generalizing cur with
  | nil => rw [List.nil_append, List.append_nil]
  | cons c t ih =>
    rw [List.cons_append, tokGo]
    rw [if_neg (fun h => hq (by simp [h]))]
    rw [if_neg (by simp)]
    rw [ih (fun h => hq (by simp [h]))]
    simp

lemma tokGo_join (ts : List Chars) (h : ∀ t ∈ ts, WfTok t) :
    tokGo (joinWith ' ' ts) [] false = ts := by
  induction ts with
  | nil => rfl
  | cons t rest ih =>
    have hwft := h t (by simp)
    cases rest with
    | nil =>
      rw [joinWith]
      rcases hwft with ⟨hne, hsp, hq⟩ | ⟨mid, rfl, hq⟩
      · rw [show t = t ++ ([] : Chars) by simp, tokGo_bare t hsp hq [] []]
        rw [List.nil_append, List.append_nil, tokGo,
          if_neg (by simpa using hne)]
      · rw [show tokGo ('"' :: (mid ++ ['"'])) [] false =
          tokGo (mid ++ ['"']) [] true from rfl]
        rw [tokGo_quoted_mid mid hq ['"'] []]
        rfl
    | cons r2 rest2 =>
      rw [joinWith]
      rcases hwft with ⟨hne, hsp, hq⟩ | ⟨mid, rfl, hq⟩
      · rw [tokGo_bare t hsp hq _ []]
        rw [List.nil_append, tokGo]
        rw [if_neg (by decide), if_pos (by decide),
          if_neg (by simpa using hne)]
        rw [ih (fun x hx => h x (by simp [hx]))]
      · rw [List.cons_append]
        rw [show tokGo ('"' :: ((mid ++ ['"']) ++ ' ' ::
            joinWith ' ' (r2 :: rest2))) [] false =
          tokGo ((mid ++ ['"']) ++ ' ' :: joinWith ' ' (r2 :: rest2)) [] true
          from rfl]
        rw [List.append_assoc]
        rw [tokGo_quoted_mid mid hq _ []]
        rw [show tokGo (['"'] ++ ' ' :: joinWith ' ' (r2 :: rest2))
            ([] ++ mid) true =
          ('"' :: (([] ++ mid) ++ ['"'])) ::
            tokGo (joinWith ' ' (r2 :: rest2)) [] false from rfl]
        rw [ih (fun x hx => h x (by simp [hx]))]
        simp

lemma tokenizeL_join (ts : List Chars) (h : ∀ t ∈ ts, WfTok t) :
    tokenizeL (joinWith ' ' ts) = ts :=
  tokGo_join ts h

/-! Per-token facts bundled for the line-level lemmas. -/

/-- A token as the encoder emits it inside a line of the good domain:
non-empty, tokenizer-reproducible, whitespace-free at both ends, and free
of newlines. -/
def GoodTok (t : Chars) : Prop :=
  t ≠ [] ∧ WfTok t ∧ (∀ c, t.head? = some c → isJsWs c = false) ∧
  (∀ c, t.getLast? = some c → isJsWs c = false) ∧ '\n' ∉ t

lemma goodStr_cases {s : String} (h : goodStr s = true) :
    ('"' ∉ s.data ∧ '\n' ∉ s.data) ∧
      (s.data.any isJsWs = true ∨
        (s.data ≠ [] ∧ (∀ c ∈ s.data, isJsWs c = false) ∧
          s.data ≠ "true".data ∧ s.data ≠ "false".data ∧ s.data ≠ "null".data ∧
          jsParseNumber? s.data = none)) := by
  simp only [goodStr, Bool.and_eq_true, Bool.not_eq_true', Bool.or_eq_true] at h
  obtain ⟨⟨hq, hnl⟩, hrest⟩ := h
  have hq2 : '"' ∉ s.data := by
    intro hmem
    rw [List.contains_eq_any_beq, List.any_eq_false] at hq
    have hfalse := hq '"' hmem
    simp at hfalse
  have hnl2 : '\n' ∉ s.data := by
    intro hmem
    rw [List.contains_eq_any_beq, List.any_eq_false] at hnl
    have hfalse := hnl '\n' hmem
    simp at hfalse
  refine ⟨⟨hq2, hnl2⟩, ?_⟩
  by_cases hws : s.data.any isJsWs = true
  · exact Or.inl hws
  · rcases hrest with h | hbare
    · exact absurd h hws
    · simp only [Bool.and_eq_true, Bool.not_eq_true', beq_eq_false_iff_ne, ne_eq,
        Option.isNone_iff_eq_none] at hbare
      refine Or.inr ⟨?_, ?_, hbare.1.1.1.2, hbare.1.1.2, hbare.1.2, hbare.2⟩
      · intro hnil
        rw [hnil] at hbare
        exact absurd hbare.1.1.1.1 (by decide)
      · intro c hc
        rw [Bool.not_eq_true, List.any_eq_false] at hws
        simpa using hws c hc

lemma goodTok_format {v : Value} (h : goodPrim v = true) :
    GoodTok (formatValueL v) := by
  match v with
  | Value.vnull => exact ⟨by decide, Or.inl (by decide), by decide, by decide, by decide⟩
  | Value.vbool true => exact ⟨by decide, Or.inl (by decide), by decide, by decide, by decide⟩
  | Value.vbool false => exact ⟨by decide, Or.inl (by decide), by decide, by decide, by decide⟩
  | Value.vnum n =>
    have hchars := fun c hc => numToChars_chars (i := n) (c := c) hc
    have hnsp : ∀ c ∈ numToChars n, isJsWs c = false := fun c hc =>
      numToChars_not_ws hc
    have hfv : formatValueL (Value.vnum n) = numToChars n := rfl
    rw [hfv]
    refine ⟨?_, Or.inl ⟨?_, ?_, ?_⟩, ?_, ?_, ?_⟩
    · rw [numToChars]
      split
      · simp
      · exact natDigits_ne_nil _
    · rw [numToChars]
      split
      · simp
      · exact natDigits_ne_nil _
    · intro hmem
      exact absurd (hnsp ' ' hmem) (by decide)
    · intro hmem
      rcases hchars '"' hmem with hd | hd
      · exact absurd hd (by decide)
      · exact absurd hd (by decide)
    · exact fun c hc => hnsp c (List.mem_of_mem_head? hc)
    · exact fun c hc => hnsp c (List.mem_of_mem_getLast? hc)
    · intro hmem
      exact absurd (hnsp '\n' hmem) (by decide)
  | Value.vstr s =>
    obtain ⟨⟨hq, hnl⟩, hcases⟩ := goodStr_cases h
    by_cases hws : s.data.any isJsWs = true
    · have hfv : formatValueL (Value.vstr s) = '"' :: (s.data ++ ['"']) := by
        rw [formatValueL, if_pos hws]
      rw [hfv]
      have hlast : ('"' :: (s.data ++ ['"'])).getLast? = some '"' := by
        rw [show '"' :: (s.data ++ ['"']) = ('"' :: s.data) ++ ['"'] by simp]
        exact List.getLast?_concat _
      refine ⟨by simp, Or.inr ⟨s.data, rfl, hq⟩, ?_, ?_, ?_⟩
      · intro c hc
        injection hc with hc
        subst hc
        decide
      · intro c hc
        rw [hlast] at hc
        injection hc with hc
        subst hc
        decide
      · intro hmem
        rcases List.mem_cons.1 hmem with hc | hmem
        · exact absurd hc (by decide)
        · rcases List.mem_append.1 hmem with hmem | hmem
          · exact hnl hmem
          · simp at hmem
    · rcases hcases with hws2 | ⟨hne, hnows, -⟩
      · exact absurd hws2 hws
      · have hfv : formatValueL (Value.vstr s) = s.data := by
          rw [formatValueL, if_neg hws]
        rw [hfv]
        refine ⟨hne, Or.inl ⟨hne, ?_, hq⟩, ?_, ?_, ?_⟩
        · intro hmem
          exact absurd (hnows ' ' hmem) (by decide)
        · exact fun c hc => hnows c (List.mem_of_mem_head? hc)
        · exact fun c hc => hnows c (List.mem_of_mem_getLast? hc)
        · intro hmem
          exact absurd (hnows '\n' hmem) (by decide)

lemma goodKey_cases {k : String} (h : goodKey k = true) :
    k.data ≠ [] ∧ (∀ c ∈ k.data, isJsWs c = false) ∧ '"' ∉ k.data ∧
      containsMark k.data = false := by
  simp only [goodKey, Bool.and_eq_true, Bool.not_eq_true'] at h
  refine ⟨?_, ?_, ?_, h.2⟩
  · intro hnil
    rw [hnil] at h
    exact absurd h.1.1 (by decide)
  · intro c hc
    have := h.1.2
    rw [List.any_eq_false] at this
    have := this c hc
    simp only [Bool.or_eq_true, not_or] at this
    simpa using this.1
  · intro hmem
    have := h.1.2
    rw [List.any_eq_false] at this
    have := this '"' hmem
    simp at this

lemma goodTok_key {k : String} (h : goodKey k = true) : GoodTok k.data := by
  obtain ⟨hne, hnows, hq, -⟩ := goodKey_cases h
  refine ⟨hne, Or.inl ⟨hne, ?_, hq⟩, ?_, ?_, ?_⟩
  · intro hmem
    exact absurd (hnows ' ' hmem) (by decide)
  · exact fun c hc => hnows c (List.mem_of_mem_head? hc)
  · exact fun c hc => hnows c (List.mem_of_mem_getLast? hc)
  · intro hmem
    exact absurd (hnows '\n' hmem) (by decide)

/-! Line-level facts: trimming, indent and the ends of joined token lines. -/

lemma dropWhile_ws_replicate (m : Nat) (l : Chars) :
    (List.replicate m ' ' ++ l).dropWhile isJsWs = l.dropWhile isJsWs := by
  induction m with
  | zero => rfl
  | succ n ih =>
    rw [List.replicate_succ, List.cons_append, List.dropWhile_cons,
      if_pos (by decide)]
    exact ih

lemma jsTrimL_spaces (m : Nat) (body : Chars)
    (h1 : ∀ c, body.head? = some c → isJsWs c = false)
    (h2 : ∀ c, body.getLast? = some c → isJsWs c = false) :
    jsTrimL (List.replicate m ' ' ++ body) = body := by
  rw [jsTrimL, dropWhile_ws_replicate, dropWhile_head_false h1]
  rw [dropWhile_head_false (fun c hc => h2 c (by rwa [← List.head?_reverse]))]
  exact List.reverse_reverse body

lemma findIdx?_replicate_sp (m : Nat) (body : Chars) (c : Char)
    (hc : body.head? = some c) (hws : isJsWs c = false) :
    ∀ i : Nat, List.findIdx? (fun c => !isJsWs c)
      (List.replicate m ' ' ++ body) i = some (i + m) := by
  induction m with
  | zero =>
    intro i
    obtain ⟨t, rfl⟩ : ∃ t, body = c :: t := by
      cases body with
      | nil => simp at hc
      | cons a t => injection hc with hc; exact ⟨t, by rw [hc]⟩
    rw [List.replicate_zero, List.nil_append, List.findIdx?_cons,
      if_pos (by simp [hws])]
    simp
  | succ n ih =>
    intro i
    rw [List.replicate_succ, List.cons_append, List.findIdx?_cons,
      if_neg (by decide), ih (i + 1)]
    congr 1
    omega

lemma getIndentL_spaces (m : Nat) (body : Chars) (c : Char)
    (hc : body.head? = some c) (hws : isJsWs c = false) :
    getIndentL (List.replicate m ' ' ++ body) = (m : Int) := by
  rw [getIndentL]
  rw [show List.findIdx? (fun c => !isJsWs c) (List.replicate m ' ' ++ body) =
    List.findIdx? (fun c => !isJsWs c) (List.replicate m ' ' ++ body) 0 from rfl]
  rw [findIdx?_replicate_sp m body c hc hws 0]
  simp

lemma joinWith_ne_nil {sep : Char} {ts : List Chars} (hne : ts ≠ [])
    (h : ∀ t ∈ ts, t ≠ []) : joinWith sep ts ≠ [] := by
  match ts, hne with
  | [t], _ => exact h t (by simp)
  | t :: r2 :: rest, _ =>
    rw [joinWith]
    intro hcontra
    exact h t (by simp) (List.append_eq_nil.1 hcontra).1

lemma joinWith_head? {sep : Char} {ts : List Chars} {t0 : Chars}
    (hts : ts.head? = some t0) (hne : t0 ≠ []) :
    (joinWith sep ts).head? = t0.head? := by
  match ts, hts with
  | [t1], hts =>
    injection hts with hts
    subst hts
    rfl
  | t1 :: r2 :: rest, hts =>
    injection hts with hts
    subst hts
    rw [joinWith, List.head?_append_of_ne_nil _ hne]

lemma joinWith_getLast? {sep : Char} :
    ∀ {ts : List Chars} {tl : Chars}, ts.getLast? = some tl → tl ≠ [] →
      (∀ t ∈ ts, t ≠ []) → (joinWith sep ts).getLast? = tl.getLast? := by
  intro ts
  induction ts with
  | nil => intro tl h; simp at h
  | cons t rest ih =>
    intro tl hlast hne hall
    cases rest with
    | nil =>
      simp only [List.getLast?_singleton, Option.some.injEq] at hlast
      subst hlast
      rfl
    | cons r2 rest2 =>
      rw [List.getLast?_cons_cons] at hlast
      rw [joinWith]
      rw [List.getLast?_append_cons]
      rw [show (sep :: joinWith sep (r2 :: rest2) : Chars) =
        [sep] ++ joinWith sep (r2 :: rest2) from rfl]
      rw [List.getLast?_append_of_ne_nil [sep]
        (joinWith_ne_nil (by simp) (fun x hx => hall x (by simp [hx])))]
      exact ih hlast hne (fun x hx => hall x (by simp [hx]))

/-! Association-list and key-sorting lemmas. -/

lemma objAssign_fresh (obj : List (String × Value)) (k : String) (v : Value)
    (h : k ∉ obj.map Prod.fst) : objAssign obj k v = obj ++ [(k, v)] := by
  induction obj with
  | nil => rfl
  | cons p t ih =>
    obtain ⟨k1, v1⟩ := p
    rw [objAssign, if_neg (by rintro rfl; exact h (by simp))]
    rw [ih (fun hm => h (by simp [hm]))]
    rfl

lemma mergePairs_fresh :
    ∀ (ps obj : List (String × Value)),
      (∀ k ∈ ps.map Prod.fst, k ∉ obj.map Prod.fst) →
      (ps.map Prod.fst).Nodup →
      mergePairs obj ps = obj ++ ps := by
  intro ps
  induction ps with
  | nil => intro obj h hnd; simp [mergePairs]
  | cons p t ih =>
    intro obj h hnd
    obtain ⟨k, v⟩ := p
    rw [mergePairs, List.foldl_cons]
    rw [show List.foldl (fun o p => objAssign o p.1 p.2)
      (objAssign obj k v) t = mergePairs (objAssign obj k v) t from rfl]
    rw [objAssign_fresh obj k v (h k (by simp))]
    rw [List.map_cons, List.nodup_cons] at hnd
    rw [ih (obj ++ [(k, v)]) ?_ hnd.2]
    · simp
    · intro k2 hk2
      simp only [List.map_append, List.mem_append, List.map_cons, List.map_nil,
        List.mem_singleton, List.mem_cons, List.not_mem_nil, or_false]
      rintro (hin | rfl)
      · exact h k2 (by simp [hk2]) hin
      · exact hnd.1 hk2

lemma insertKey_perm (k : String) (l : List String) :
    (insertKey k l).Perm (k :: l) := by
  induction l with
  | nil => rfl
  | cons h2 t ih =>
    rw [insertKey]
    split
    · rfl
    · exact (List.Perm.cons h2 ih).trans (List.Perm.swap k h2 t)

lemma sortKeys_perm (l : List String) : (sortKeys l).Perm l := by
  induction l with
  | nil => rfl
  | cons h2 t ih =>
    rw [sortKeys]
    exact (insertKey_perm h2 (sortKeys t)).trans (ih.cons h2)

lemma perm_of_sortKeys_eq {a b : List String} (h : sortKeys a = sortKeys b) :
    a.Perm b :=
  ((sortKeys_perm a).symm.trans (h ▸ List.Perm.refl (sortKeys a))).trans
    (sortKeys_perm b)

lemma objGet_mem {fs : List (String × Value)} {k : String} {w : Value}
    (h : objGet (Value.vobj fs) k = some w) : (k, w) ∈ fs := by
  induction fs with
  | nil => simp [objGet] at h
  | cons p t ih =>
    obtain ⟨k1, v1⟩ := p
    rw [objGet] at h
    by_cases hk : k1 = k
    · subst hk
      rw [List.find?_cons_of_pos _ (by simp)] at h
      rw [show ((some (k1, v1)).map (fun p => p.2)) = some v1 from rfl] at h
      injection h with h
      exact List.mem_cons.2 (Or.inl (by rw [← h]))
    · rw [List.find?_cons_of_neg _ (by simp [hk])] at h
      exact List.mem_cons.2 (Or.inr (ih (by rw [objGet]; exact h)))

lemma objGet_of_mem_keys {fs : List (String × Value)} {k : String}
    (h : k ∈ fs.map Prod.fst) : ∃ w, objGet (Value.vobj fs) k = some w := by
  induction fs with
  | nil => simp at h
  | cons p t ih =>
    obtain ⟨k1, v1⟩ := p
    by_cases hk : k1 = k
    · subst hk
      exact ⟨v1, by rw [objGet, List.find?_cons_of_pos _ (by simp)]; rfl⟩
    · simp only [List.map_cons, List.mem_cons] at h
      rcases h with rfl | h
      · exact absurd rfl hk
      · obtain ⟨w, hw⟩ := ih h
        refine ⟨w, ?_⟩
        rw [objGet, List.find?_cons_of_neg _ (by simp [hk])]
        rw [objGet] at hw
        exact hw

/-- On an object with distinct keys, `objGet` of a member key is its value. -/
lemma objGet_of_mem {fs : List (String × Value)} {k : String} {v : Value}
    (hnd : (fs.map Prod.fst).Nodup) (hmem : (k, v) ∈ fs) :
    objGet (Value.vobj fs) k = some v := by
  induction fs with
  | nil => simp at hmem
  | cons p t ih =>
    obtain ⟨k1, v1⟩ := p
    rw [List.map_cons, List.nodup_cons] at hnd
    rcases List.mem_cons.1 hmem with heq | hmem2
    · injection heq with h1 h2
      subst h1
      subst h2
      rw [objGet, List.find?_cons_of_pos _ (by simp)]
      rfl
    · have hk : k1 ≠ k := by
        rintro rfl
        exact hnd.1 (by simp; exact ⟨v, hmem2⟩)
      rw [objGet, List.find?_cons_of_neg _ (by simp [hk])]
      rw [show ((List.find? (fun p => decide (p.1 = k)) t).map fun p => p.2) =
        objGet (Value.vobj t) k from rfl]
      exact ih hnd.2 hmem2

/-! Splitting the joined lines back apart. -/

lemma splitNl_no_nl (l : Chars) (h : '\n' ∉ l) : splitNl l = [l] := by
  induction l with
  | nil => rfl
  | cons c t ih =>
    rw [splitNl, if_neg (by rintro rfl; exact h (by simp))]
    rw [ih (fun hm => h (by simp [hm]))]

lemma splitNl_no_nl_append (l : Chars) (h : '\n' ∉ l) (rest : Chars) :
    splitNl (l ++ '\n' :: rest) = l :: splitNl rest := by
  induction l with
  | nil => rw [List.nil_append, splitNl, if_pos rfl]
  | cons c t ih =>
    rw [List.cons_append, splitNl, if_neg (by rintro rfl; exact h (by simp))]
    rw [ih (fun hm => h (by simp [hm]))]

lemma splitNl_joinWith (ls : List Chars) (hne : ls ≠ [])
    (h : ∀ l ∈ ls, '\n' ∉ l) : splitNl (joinWith '\n' ls) = ls := by
  induction ls with
  | nil => exact absurd rfl hne
  | cons l rest ih =>
    cases rest with
    | nil => exact splitNl_no_nl l (h l (by simp))
    | cons r2 rest2 =>
      rw [joinWith, splitNl_no_nl_append l (h l (by simp))]
      rw [ih (by simp) (fun x hx => h x (by simp [hx]))]

/-! Reconstruction of the key list from the marker line. -/

lemma splitWsGo_token (t : Chars) (h : ∀ c ∈ t, isJsWs c = false)
    (s cur : Chars) : splitWsGo (t ++ s) cur = splitWsGo s (cur ++ t) := by
  induction t generalizing cur with
  | nil => rw [List.nil_append, List.append_nil]
  | cons c t2 ih =>
    rw [List.cons_append, splitWsGo, if_neg (by simp [h c (by simp)])]
    rw [ih (fun x hx => h x (by simp [hx]))]
    simp

lemma splitWsSkip_eq_go (l : Chars) (c : Char) (hc : l.head? = some c)
    (hws : isJsWs c = false) : splitWsSkip l = splitWsGo l [] := by
  obtain ⟨t, rfl⟩ : ∃ t, l = c :: t := by
    cases l with
    | nil => simp at hc
    | cons a t => injection hc with hc; exact ⟨t, by rw [hc]⟩
  rw [splitWsSkip, if_neg (by simp [hws]), splitWsGo, if_neg (by simp [hws])]
  rfl

lemma splitWsGo_join (ks : List Chars) (hne : ks ≠ [])
    (h : ∀ k ∈ ks, k ≠ [] ∧ ∀ c ∈ k, isJsWs c = false) :
    splitWsGo (joinWith ' ' ks) [] = ks := by
  induction ks with
  | nil => exact absurd rfl hne
  | cons k rest ih =>
    cases rest with
    | nil =>
      rw [joinWith, show k = k ++ ([] : Chars) by simp,
        splitWsGo_token k (h k (by simp)).2]
      simp [splitWsGo]
    | cons k2 rest2 =>
      rw [joinWith, splitWsGo_token k (h k (by simp)).2, List.nil_append]
      rw [splitWsGo, if_pos (by decide)]
      obtain ⟨c2, hc2⟩ : ∃ c2, (joinWith ' ' (k2 :: rest2)).head? = some c2 ∧
          isJsWs c2 = false := by
        obtain ⟨d, t2, hd⟩ := List.exists_cons_of_ne_nil (h k2 (by simp [List.mem_cons])).1
        refine ⟨d, ?_, (h k2 (by simp)).2 d (by rw [hd]; simp)⟩
        rw [joinWith_head? (by rfl) (h k2 (by simp)).1, hd]
        rfl
      rw [splitWsSkip_eq_go _ c2 hc2.1 hc2.2]
      rw [ih (by simp) (fun x hx => h x (by simp [hx]))]

lemma jsSplitWs_join (ks : List String) (hne : ks ≠ [])
    (h : ∀ k ∈ ks, k.data ≠ [] ∧ ∀ c ∈ k.data, isJsWs c = false) :
    jsSplitWs (joinWith ' ' (ks.map (fun k => k.data))) = ks := by
  have hid : ∀ l : List String,
      List.map String.mk (List.map (fun k => k.data) l) = l := by
    intro l
    induction l with
    | nil => rfl
    | cons a t2 ih2 =>
      simp only [List.map_cons]
      rw [ih2]
  rw [jsSplitWs, splitWsGo_join _ (by simpa using hne) ?_]
  · exact hid ks
  · intro k hk
    obtain ⟨k2, hk2, hkeq⟩ := List.mem_map.1 hk
    replace hkeq : k2.data = k := hkeq
    rw [← hkeq]
    exact h k2 hk2

lemma markerKeys_of (keys : List String) (d : Nat) (hne : keys ≠ [])
    (h : ∀ k ∈ keys, k.data ≠ [] ∧ ∀ c ∈ k.data, isJsWs c = false) :
    markerKeys (markerLineOf keys d) = keys := by
  rw [markerKeys, markerLineOf]
  have hjoin_ne : joinWith ' ' (keys.map (fun k => k.data)) ≠ [] := by
    refine joinWith_ne_nil (by simpa using hne) ?_
    intro t ht
    obtain ⟨k2, hk2, rfl⟩ := List.mem_map.1 ht
    exact (h k2 hk2).1
  rw [twoSpaces, List.append_assoc]
  rw [show ("$S ".data ++ joinWith ' ' (keys.map (fun k => k.data))) =
      ('$' :: 'S' :: ' ' :: joinWith ' ' (keys.map (fun k => k.data))) from rfl]
  rw [jsTrimL_spaces (2 * d) _ (by intro c hc; injection hc with hc; subst hc; decide) ?_]
  · rw [show List.drop 3 ('$' :: 'S' :: ' ' ::
      joinWith ' ' (keys.map (fun k => k.data))) =
      joinWith ' ' (keys.map (fun k => k.data)) from rfl]
    exact jsSplitWs_join keys hne h
  · intro c hc
    obtain ⟨klast, hklast⟩ := List.exists_cons_of_ne_nil hne
    obtain ⟨tl, htl⟩ : ∃ tl, (keys.map (fun k => k.data)).getLast? = some tl ∧
        tl ≠ [] := by
      have : keys.map (fun k => k.data) ≠ [] := by simpa using hne
      obtain ⟨tl, htl⟩ := List.exists_cons_of_ne_nil this
      refine ⟨(keys.map (fun k => k.data)).getLast (by simpa using hne), ?_, ?_⟩
      · exact List.getLast?_eq_getLast _ _
      · have hmem := List.getLast_mem (show keys.map (fun k => k.data) ≠ []
          by simpa using hne)
        obtain ⟨k2, hk2, hkeq⟩ := List.mem_map.1 hmem
        rw [← hkeq]
        exact (h k2 hk2).1
    rw [show ('$' :: 'S' :: ' ' :: joinWith ' ' (keys.map (fun k => k.data)) : Chars) =
      ['$', 'S', ' '] ++ joinWith ' ' (keys.map (fun k => k.data)) from rfl] at hc
    rw [List.getLast?_append_of_ne_nil _ hjoin_ne] at hc
    rw [joinWith_getLast? htl.1 htl.2 ?_] at hc
    · obtain ⟨k2, hk2, hkeq⟩ := List.mem_map.1 (List.mem_of_mem_getLast?
        (show tl ∈ (keys.map (fun k => k.data)).getLast? from htl.1))
      replace hkeq : k2.data = tl := hkeq
      rw [← hkeq] at hc
      exact (h k2 hk2).2 c (List.mem_of_mem_getLast? hc)
    · intro t ht
      obtain ⟨k2, hk2, rfl⟩ := List.mem_map.1 ht
      exact (h k2 hk2).1

/-! Elimination lemmas for the well-formedness predicates. -/

lemma noDupKeys_nodup : ∀ {l : List String}, noDupKeys l = true → l.Nodup := by
  intro l
  induction l with
  | nil => intro _; exact List.nodup_nil
  | cons k t ih =>
    intro h
    rw [noDupKeys, Bool.and_eq_true] at h
    rw [List.nodup_cons]
    refine ⟨?_, ih h.2⟩
    intro hmem
    have h2 := h.1
    rw [Bool.not_eq_true'] at h2
    rw [List.contains_eq_any_beq, List.any_eq_false] at h2
    have h3 := h2 k hmem
    simp at h3

lemma goodF_obj_elim {g : Nat} {fs : List (String × Value)}
    (h : goodF (g + 1) (Value.vobj fs) = true) :
    fs ≠ [] ∧ (fs.map Prod.fst).Nodup ∧
      ∀ p ∈ fs, goodKey p.1 = true ∧
        (if isJsObject p.2 then goodF g p.2 = true else goodPrim p.2 = true) := by
  rw [goodF, Bool.and_eq_true, Bool.and_eq_true] at h
  obtain ⟨⟨hne, hnd⟩, hall⟩ := h
  rw [List.all_eq_true] at hall
  refine ⟨?_, noDupKeys_nodup hnd, ?_⟩
  · intro hnil
    rw [hnil] at hne
    exact absurd hne (by decide)
  · intro p hp
    have := hall p hp
    rw [Bool.and_eq_true] at this
    refine ⟨this.1, ?_⟩
    by_cases hobj : isJsObject p.2
    · rw [if_pos hobj]
      have h2 := this.2
      rw [if_pos hobj] at h2
      exact h2
    · rw [if_neg hobj]
      have h2 := this.2
      rw [if_neg hobj] at h2
      exact h2

lemma goodRowObj_elim {x : Value} (h : goodRowObj x = true) :
    ∃ gs, x = Value.vobj gs ∧ gs ≠ [] ∧ (gs.map Prod.fst).Nodup ∧
      ∀ p ∈ gs, goodKey p.1 = true ∧ goodPrim p.2 = true := by
  match x, h with
  | Value.vobj gs, h =>
    rw [goodRowObj, Bool.and_eq_true, Bool.and_eq_true] at h
    obtain ⟨⟨hne, hnd⟩, hall⟩ := h
    rw [List.all_eq_true] at hall
    refine ⟨gs, rfl, ?_, noDupKeys_nodup hnd, ?_⟩
    · intro hnil
      rw [hnil] at hne
      exact absurd hne (by decide)
    · intro p hp
      have := hall p hp
      rw [Bool.and_eq_true] at this
      exact this

lemma goodF_arr_elim {g : Nat} {xs : List Value}
    (h : goodF (g + 1) (Value.varr xs) = true) :
    ∃ x0 xr, xs = x0 :: xr ∧ 1 < xs.length ∧
      ∀ x ∈ xs, goodRowObj x = true ∧
        sortKeys (jsKeys x) = sortKeys (jsKeys x0) := by
  match xs, h with
  | x0 :: xr, h =>
    rw [goodF, Bool.and_eq_true] at h
    obtain ⟨hlen, hall⟩ := h
    rw [List.all_eq_true] at hall
    refine ⟨x0, xr, rfl, by simpa using hlen, ?_⟩
    intro x hx
    have := hall x hx
    rw [Bool.and_eq_true] at this
    exact ⟨this.1, by simpa using this.2⟩

lemma goodF_hasUniform {g : Nat} {xs : List Value}
    (h : goodF (g + 1) (Value.varr xs) = true) :
    hasUniformStructure xs = true := by
  obtain ⟨x0, xr, rfl, hlen, hall⟩ := goodF_arr_elim h
  obtain ⟨gs0, hx0, -, -, -⟩ := goodRowObj_elim (hall x0 (by simp)).1
  rw [hasUniformStructure]
  rw [if_neg (by rw [hx0]; simp [isJsObject])]
  rw [List.all_eq_true]
  intro x hx
  obtain ⟨gsx, hgx, -, -, -⟩ := goodRowObj_elim (hall x hx).1
  rw [Bool.and_eq_true]
  exact ⟨by rw [hgx]; rfl, by simp [(hall x hx).2]⟩

/-- Keys of a good schema-array element, via `goodKey`. -/
lemma goodKey_data_facts {k : String} (h : goodKey k = true) :
    k.data ≠ [] ∧ ∀ c ∈ k.data, isJsWs c = false :=
  ⟨(goodKey_cases h).1, (goodKey_cases h).2.1⟩

/-! The marker test fails on lines beginning with a good key. -/

lemma startsWithMark_key_false (k : String) (hk : goodKey k = true)
    (rest : Chars) (hrest : rest = [] ∨ rest.head? = some ' ') :
    startsWithMark (k.data ++ rest) = false := by
  obtain ⟨hne, hnows, -, hmark⟩ := goodKey_cases hk
  obtain ⟨c1, t1, hsh⟩ := List.exists_cons_of_ne_nil hne
  rw [hsh]
  by_cases hd : c1 = '$'
  · subst hd
    cases t1 with
    | nil =>
      rcases hrest with rfl | hsome
      · exact startsWithMark_one '$'
      · obtain ⟨x, xt, rfl⟩ := List.exists_cons_of_ne_nil
          (show rest ≠ [] by rintro rfl; simp at hsome)
        injection hsome with hsome
        subst hsome
        exact startsWithMark_second '$' ' ' _ (by decide)
    | cons c2 t2 =>
      by_cases hd2 : c2 = 'S'
      · subst hd2
        rw [hsh] at hmark
        exact absurd hmark (by rw [containsMark]; simp)
      · exact startsWithMark_second '$' c2 _ hd2
  · exact startsWithMark_first c1 _ hd

/-! Shape facts for the three kinds of encoded lines. -/

lemma lineFacts (m : Nat) (ts : List Chars) (hne : ts ≠ [])
    (h : ∀ t ∈ ts, GoodTok t) :
    jsTrimL (List.replicate m ' ' ++ joinWith ' ' ts) = joinWith ' ' ts ∧
    getIndentL (List.replicate m ' ' ++ joinWith ' ' ts) = (m : Int) ∧
    tokenizeL (joinWith ' ' ts) = ts ∧
    '\n' ∉ (List.replicate m ' ' ++ joinWith ' ' ts) ∧
    joinWith ' ' ts ≠ [] := by
  obtain ⟨t0, trest, rfl⟩ := List.exists_cons_of_ne_nil hne
  have ht0 := h t0 (by simp)
  obtain ⟨c0, t0r, hc0⟩ := List.exists_cons_of_ne_nil ht0.1
  obtain ⟨tl, htl, hm⟩ : ∃ tl, (t0 :: trest).getLast? = some tl ∧ tl ∈ t0 :: trest := by
    refine ⟨(t0 :: trest).getLast (by simp), List.getLast?_eq_getLast _ _, ?_⟩
    exact List.getLast_mem _
  have htlg := h tl hm
  have hhead : (joinWith ' ' (t0 :: trest)).head? = t0.head? :=
    joinWith_head? rfl ht0.1
  have hlast : (joinWith ' ' (t0 :: trest)).getLast? = tl.getLast? :=
    joinWith_getLast? htl htlg.1 (fun x hx => (h x hx).1)
  have hheadf : ∀ c, (joinWith ' ' (t0 :: trest)).head? = some c →
      isJsWs c = false := by
    intro c hc
    rw [hhead] at hc
    exact ht0.2.2.1 c hc
  have hlastf : ∀ c, (joinWith ' ' (t0 :: trest)).getLast? = some c →
      isJsWs c = false := by
    intro c hc
    rw [hlast] at hc
    exact htlg.2.2.2.1 c hc
  obtain ⟨chead, hchead⟩ : ∃ c, (joinWith ' ' (t0 :: trest)).head? = some c := by
    rw [hhead, hc0]
    exact ⟨c0, rfl⟩
  refine ⟨jsTrimL_spaces m _ hheadf hlastf, ?_, ?_, ?_, ?_⟩
  · exact getIndentL_spaces m _ chead hchead (hheadf chead hchead)
  · exact tokenizeL_join _ (fun t ht => (h t ht).2.1)
  · intro hmem
    rcases List.mem_append.1 hmem with hmem | hmem
    · exact absurd (List.eq_of_mem_replicate hmem) (by decide)
    · rcases mem_joinWith hmem with heq | ⟨l2, hl2, hcl2⟩
      · exact absurd heq (by decide)
      · exact (h l2 hl2).2.2.2.2 hcl2
  · exact joinWith_ne_nil (by simp) (fun x hx => (h x hx).1)

/-- The value tokens of one schema row. -/
def rowTokens (keys : List String) (x : Value) : List Chars :=
  keys.map (fun k =>
    match objGet x k with
    | some w => formatValueL w
    | none => "undefined".data)

lemma schemaRowLine_eq (keys : List String) (d : Nat) (x : Value) :
    schemaRowLine keys d x =
      List.replicate (2 * d + 2) ' ' ++ joinWith ' ' (rowTokens keys x) := by
  rw [schemaRowLine, twoSpaces, rowTokens]
  rw [show ("  ".data : Chars) = List.replicate 2 ' ' from rfl]
  rw [← List.replicate_add]

lemma jsTrimL_markerLine (keys : List String) (hne : keys ≠ [])
    (h : ∀ k ∈ keys, k.data ≠ [] ∧ ∀ c ∈ k.data, isJsWs c = false) :
    jsTrimL (markerLineOf keys d) =
      '$' :: 'S' :: ' ' :: joinWith ' ' (keys.map (fun k => k.data)) := by
  rw [markerLineOf, twoSpaces, List.append_assoc]
  rw [show ("$S ".data ++ joinWith ' ' (keys.map (fun k => k.data))) =
      ('$' :: 'S' :: ' ' :: joinWith ' ' (keys.map (fun k => k.data))) from rfl]
  have hjoin_ne : joinWith ' ' (keys.map (fun k => k.data)) ≠ [] := by
    refine joinWith_ne_nil (by simpa using hne) ?_
    intro t ht
    obtain ⟨k2, hk2, hkeq⟩ := List.mem_map.1 ht
    replace hkeq : k2.data = t := hkeq
    rw [← hkeq]
    exact (h k2 hk2).1
  refine jsTrimL_spaces (2 * d) _ ?_ ?_
  · intro c hc
    injection hc with hc
    subst hc
    decide
  · intro c hc
    obtain ⟨tl, htl, htlne⟩ : ∃ tl,
        (keys.map (fun k => k.data)).getLast? = some tl ∧ tl ≠ [] := by
      refine ⟨(keys.map (fun k => k.data)).getLast (by simpa using hne),
        List.getLast?_eq_getLast _ _, ?_⟩
      have hmem := List.getLast_mem (show keys.map (fun k => k.data) ≠ []
        by simpa using hne)
      obtain ⟨k2, hk2, hkeq⟩ := List.mem_map.1 hmem
      replace hkeq : k2.data = _ := hkeq
      rw [← hkeq]
      exact (h k2 hk2).1
    rw [show ('$' :: 'S' :: ' ' :: joinWith ' ' (keys.map (fun k => k.data)) : Chars) =
      ['$', 'S', ' '] ++ joinWith ' ' (keys.map (fun k => k.data)) from rfl] at hc
    rw [List.getLast?_append_of_ne_nil _ hjoin_ne] at hc
    rw [joinWith_getLast? htl htlne ?_] at hc
    · obtain ⟨k2, hk2, hkeq⟩ := List.mem_map.1 (List.mem_of_mem_getLast?
        (show tl ∈ (keys.map (fun k => k.data)).getLast? from htl))
      replace hkeq : k2.data = tl := hkeq
      rw [← hkeq] at hc
      exact (h k2 hk2).2 c (List.mem_of_mem_getLast? hc)
    · intro t ht
      obtain ⟨k2, hk2, hkeq⟩ := List.mem_map.1 ht
      replace hkeq : k2.data = t := hkeq
      rw [← hkeq]
      exact (h k2 hk2).1

lemma markerLine_facts (keys : List String) (d : Nat) (hne : keys ≠ [])
    (h : ∀ k ∈ keys, k.data ≠ [] ∧ ∀ c ∈ k.data, isJsWs c = false) :
    startsWithMark (jsTrimL (markerLineOf keys d)) = true ∧
    getIndentL (markerLineOf keys d) = ((2 * d : Nat) : Int) ∧
    '\n' ∉ markerLineOf keys d ∧
    jsTrimL (markerLineOf keys d) ≠ [] := by
  have htrim := jsTrimL_markerLine keys hne h (d := d)
  refine ⟨by rw [htrim]; rfl, ?_, ?_, by rw [htrim]; simp⟩
  · rw [markerLineOf, twoSpaces, List.append_assoc]
    rw [show ("$S ".data ++ joinWith ' ' (keys.map (fun k => k.data))) =
        ('$' :: 'S' :: ' ' :: joinWith ' ' (keys.map (fun k => k.data))) from rfl]
    exact getIndentL_spaces (2 * d) _ '$' rfl (by decide)
  · intro hmem
    rw [markerLineOf, twoSpaces, List.append_assoc] at hmem
    rw [show ("$S ".data ++ joinWith ' ' (keys.map (fun k => k.data))) =
        ('$' :: 'S' :: ' ' :: joinWith ' ' (keys.map (fun k => k.data))) from rfl]
      at hmem
    rcases List.mem_append.1 hmem with hmem | hmem
    · exact absurd (List.eq_of_mem_replicate hmem) (by decide)
    · rw [List.mem_cons, List.mem_cons, List.mem_cons] at hmem
      rcases hmem with h | h | h | hmem
      · exact absurd h (by decide)
      · exact absurd h (by decide)
      · exact absurd h (by decide)
      rcases mem_joinWith hmem with heq | ⟨l2, hl2, hcl2⟩
      · exact absurd heq (by decide)
      · obtain ⟨k2, hk2, hkeq⟩ := List.mem_map.1 hl2
        replace hkeq : k2.data = l2 := hkeq
        rw [← hkeq] at hcl2
        exact absurd ((h k2 hk2).2 '\n' hcl2) (by decide)

/-! Token-level and fold-level helpers for reparsing encoded lines. -/

lemma goodPrim_token {v : Value} (h : goodPrim v = true) :
    goodPrimToken v = true := by
  match v with
  | Value.vnull => rfl
  | Value.vbool _ => rfl
  | Value.vnum _ => rfl
  | Value.vstr s =>
    obtain ⟨⟨hq, -⟩, hcases⟩ := goodStr_cases h
    rw [goodPrimToken, Bool.and_eq_true]
    constructor
    · rw [Bool.not_eq_true', List.contains_eq_any_beq, List.any_eq_false]
      intro c hc
      have hcn : c ≠ '"' := fun hcc => hq (hcc ▸ hc)
      exact fun hcc => hcn (eq_of_beq hcc).symm
    · rcases hcases with hws | ⟨-, -, ht, hf, hn, hnum⟩
      · rw [hws]
        rfl
      · rw [Bool.or_eq_true]
        refine Or.inr ?_
        simp only [Bool.and_eq_true, Bool.not_eq_true', beq_eq_false_iff_ne, ne_eq,
          Option.isNone_iff_eq_none]
        exact ⟨⟨⟨ht, hf⟩, hn⟩, hnum⟩

lemma zip_self_map {α β : Type} (l : List α) (f : α → β) :
    l.zip (l.map f) = l.map (fun a => (a, f a)) := by
  induction l with
  | nil => rfl
  | cons a t ih =>
    rw [List.map_cons]
    rw [show (a :: t).zip (f a :: t.map f) = (a, f a) :: t.zip (t.map f) from rfl]
    rw [ih, List.map_cons]

/-- Evaluation of one schema row on the token list the encoder produced. -/
lemma schemaRow_eval (keys : List String) (hnd : keys.Nodup)
    (tokOf : String → Chars) :
    schemaRow keys (keys.map tokOf) =
      Value.vobj (keys.map (fun k => (k, parseValueL (tokOf k)))) := by
  rw [schemaRow, zip_self_map]
  have hfold : List.foldl (fun o p => objAssign o p.1 (parseValueL p.2)) []
      (keys.map (fun k => (k, tokOf k))) =
      mergePairs [] (keys.map (fun k => (k, parseValueL (tokOf k)))) := by
    rw [mergePairs, List.foldl_map, List.foldl_map]
  rw [hfold, mergePairs_fresh _ _ (by simp) ?_]
  · rw [List.nil_append]
  · rw [show (keys.map (fun k => (k, parseValueL (tokOf k)))).map Prod.fst =
      keys by rw [List.map_map]; exact List.map_id keys]
    exact hnd

lemma joinWith_pairflat {α : Type} (sep : Char) (f g : α → Chars) :
    ∀ l : List α,
      joinWith sep (l.map (fun p => f p ++ sep :: g p)) =
        joinWith sep (l.flatMap (fun p => [f p, g p])) := by
  intro l
  induction l with
  | nil => rfl
  | cons p t ih =>
    cases t with
    | nil => rfl
    | cons q t2 =>
      rw [List.map_cons, List.flatMap_cons]
      rw [show ([f p, g p] ++ (q :: t2).flatMap (fun p => [f p, g p])) =
        f p :: g p :: (q :: t2).flatMap (fun p => [f p, g p]) from rfl]
      rw [show joinWith sep ((f p ++ sep :: g p) ::
          (q :: t2).map (fun p => f p ++ sep :: g p)) =
        (f p ++ sep :: g p) ++ sep ::
          joinWith sep ((q :: t2).map (fun p => f p ++ sep :: g p)) from rfl]
      rw [ih]
      have hne : (q :: t2).flatMap (fun p => [f p, g p]) ≠ [] := by
        rw [List.flatMap_cons]
        simp
      obtain ⟨x, xs, hx⟩ := List.exists_cons_of_ne_nil hne
      rw [hx]
      rw [show joinWith sep (f p :: g p :: x :: xs) =
        f p ++ sep :: (g p ++ sep :: joinWith sep (x :: xs)) from rfl]
      rw [List.append_assoc]
      rfl

lemma flatMap_pair_length {α : Type} (f g : α → Chars) (l : List α) :
    (l.flatMap (fun p => [f p, g p])).length = 2 * l.length := by
  induction l with
  | nil => rfl
  | cons p t ih =>
    rw [List.flatMap_cons, List.length_append, ih]
    simp only [List.length_cons, List.length_nil, List.length_cons]
    omega

/-- Reparsing the flattened key/value token list of the simple pairs
recovers the pairs. -/
lemma pairsOf_flat :
    ∀ l : List (String × Value),
      (∀ p ∈ l, goodPrim p.2 = true) →
      pairsOf (l.flatMap (fun p => [p.1.data, formatValueL p.2])) = l := by
  intro l
  induction l with
  | nil => intro _; rfl
  | cons p t ih =>
    intro h
    rw [List.flatMap_cons]
    rw [show ([p.1.data, formatValueL p.2] ++
        t.flatMap (fun p => [p.1.data, formatValueL p.2])) =
      p.1.data :: formatValueL p.2 ::
        t.flatMap (fun p => [p.1.data, formatValueL p.2]) from rfl]
    rw [pairsOf]
    rw [ih (fun q hq => h q (by simp [hq]))]
    rw [parse_format_token (goodPrim_token (h p (by simp)))]

lemma joinWith_append_cons (sep : Char) (bs : List Chars) (hne : bs ≠ [])
    (r : Chars) (R : List Chars) :
    joinWith sep (bs ++ r :: R) =
      joinWith sep bs ++ sep :: joinWith sep (r :: R) := by
  induction bs with
  | nil => exact absurd rfl hne
  | cons b bt ih =>
    cases bt with
    | nil => rfl
    | cons b2 bt2 =>
      rw [List.cons_append]
      rw [show joinWith sep (b :: (b2 :: bt2 ++ r :: R)) =
        b ++ sep :: joinWith sep (b2 :: bt2 ++ r :: R) by
          cases bt2 <;> rfl]
      rw [ih (by simp)]
      rw [show joinWith sep (b :: b2 :: bt2) =
        b ++ sep :: joinWith sep (b2 :: bt2) from rfl]
      rw [List.append_assoc]
      rfl

/-- Splicing a pre-joined block into a joined line list flattens it. -/
lemma joinWith_unflatten (sep : Char) (bs : List Chars) (hne : bs ≠ []) :
    ∀ (F R : List Chars),
      joinWith sep (F ++ joinWith sep bs :: R) = joinWith sep (F ++ (bs ++ R)) := by
  intro F
  induction F with
  | nil =>
    intro R
    cases R with
    | nil =>
      rw [List.nil_append, List.nil_append, List.append_nil]
      rfl
    | cons r R2 =>
      rw [List.nil_append, List.nil_append]
      rw [show joinWith sep (joinWith sep bs :: r :: R2) =
        joinWith sep bs ++ sep :: joinWith sep (r :: R2) from rfl]
      rw [joinWith_append_cons sep bs hne]
  | cons a F2 ih =>
    intro R
    have h1 : F2 ++ joinWith sep bs :: R ≠ [] := by simp
    have h2 : F2 ++ (bs ++ R) ≠ [] := by
      intro hcontra
      exact hne (List.append_eq_nil.1 (List.append_eq_nil.1 hcontra).2).1
    obtain ⟨x1, xs1, hx1⟩ := List.exists_cons_of_ne_nil h1
    obtain ⟨x2, xs2, hx2⟩ := List.exists_cons_of_ne_nil h2
    rw [List.cons_append, List.cons_append, hx1, hx2]
    rw [show joinWith sep (a :: x1 :: xs1) =
      a ++ sep :: joinWith sep (x1 :: xs1) from rfl]
    rw [show joinWith sep (a :: x2 :: xs2) =
      a ++ sep :: joinWith sep (x2 :: xs2) from rfl]
    rw [← hx1, ← hx2, ih R]

/-! Facts about the simple-pairs line, key lines and schema rows as the
decoder sees them. -/

lemma isKeyValueLine_eq (l : Chars) :
    isKeyValueLine l =
      (decide (2 ≤ (tokenizeL l).length) &&
        decide ((tokenizeL l).length % 2 = 0)) := rfl

lemma pairsLine_facts (fs : List (String × Value)) (d : Nat)
    (hgood : ∀ p ∈ fs.filter (fun p => !(isJsObject p.2)),
      goodKey p.1 = true ∧ goodPrim p.2 = true)
    (hne : fs.filter (fun p => !(isJsObject p.2)) ≠ []) :
    getIndentL (simplePairsLine fs d) = ((2 * d : Nat) : Int) ∧
    startsWithMark (jsTrimL (simplePairsLine fs d)) = false ∧
    isKeyValueLine (jsTrimL (simplePairsLine fs d)) = true ∧
    pairsOf (tokenizeL (jsTrimL (simplePairsLine fs d))) =
      fs.filter (fun p => !(isJsObject p.2)) ∧
    '\n' ∉ simplePairsLine fs d ∧
    jsTrimL (simplePairsLine fs d) ≠ [] := by
  set simple := fs.filter (fun p => !(isJsObject p.2)) with hsimple
  have hflatgood : ∀ t ∈ simple.flatMap (fun p => [p.1.data, formatValueL p.2]),
      GoodTok t := by
    intro t ht
    rw [List.mem_flatMap] at ht
    obtain ⟨p, hp, hmem⟩ := ht
    rcases List.mem_cons.1 hmem with heq | hmem2
    · rw [heq]
      exact goodTok_key (hgood p hp).1
    · rw [List.mem_singleton] at hmem2
      rw [hmem2]
      exact goodTok_format (hgood p hp).2
  obtain ⟨p0, srest, hs⟩ := List.exists_cons_of_ne_nil hne
  have hflatne : simple.flatMap (fun p => [p.1.data, formatValueL p.2]) ≠ [] := by
    rw [hs, List.flatMap_cons]
    simp
  have hline : simplePairsLine fs d = List.replicate (2 * d) ' ' ++
      joinWith ' ' (simple.flatMap (fun p => [p.1.data, formatValueL p.2])) := by
    rw [simplePairsLine, twoSpaces, ← hsimple]
    rw [joinWith_pairflat ' ' (fun p => p.1.data) (fun p => formatValueL p.2) simple]
  have hfacts := lineFacts (2 * d)
    (simple.flatMap (fun p => [p.1.data, formatValueL p.2])) hflatne hflatgood
  rw [hline, hfacts.1]
  have hlen1 : 1 ≤ simple.length := List.length_pos.2 (by rw [hs]; simp)
  have hlen : (simple.flatMap (fun p => [p.1.data, formatValueL p.2])).length =
      2 * simple.length :=
    flatMap_pair_length (fun p => p.1.data) (fun p => formatValueL p.2) simple
  refine ⟨hfacts.2.1, ?_, ?_, ?_, hfacts.2.2.2.1, hfacts.2.2.2.2⟩
  · rw [hs, List.flatMap_cons]
    rw [show ([p0.1.data, formatValueL p0.2] ++
        srest.flatMap (fun p => [p.1.data, formatValueL p.2])) =
      p0.1.data :: formatValueL p0.2 ::
        srest.flatMap (fun p => [p.1.data, formatValueL p.2]) from rfl]
    rw [show joinWith ' ' (p0.1.data :: formatValueL p0.2 ::
        srest.flatMap (fun p => [p.1.data, formatValueL p.2])) =
      p0.1.data ++ ' ' :: joinWith ' ' (formatValueL p0.2 ::
        srest.flatMap (fun p => [p.1.data, formatValueL p.2])) from rfl]
    exact startsWithMark_key_false p0.1 (hgood p0 (by rw [hs]; simp)).1 _
      (Or.inr rfl)
  · rw [isKeyValueLine_eq, hfacts.2.2.1, hlen]
    have h2 : 2 ≤ 2 * simple.length := by omega
    have h3 : 2 * simple.length % 2 = 0 := by omega
    simp [h2, h3]
  · rw [hfacts.2.2.1]
    exact pairsOf_flat simple (fun p hp => (hgood p hp).2)

lemma keyLine_facts (k : String) (hk : goodKey k = true) (d : Nat) :
    jsTrimL (twoSpaces d ++ k.data) = k.data ∧
    getIndentL (twoSpaces d ++ k.data) = ((2 * d : Nat) : Int) ∧
    startsWithMark k.data = false ∧
    isKeyValueLine k.data = false ∧
    '\n' ∉ twoSpaces d ++ k.data ∧
    k.data ≠ [] := by
  have hfacts := lineFacts (2 * d) [k.data] (by simp) (by
    intro t ht
    rw [List.mem_singleton] at ht
    rw [ht]
    exact goodTok_key hk)
  have hj : joinWith ' ' [k.data] = k.data := rfl
  rw [hj] at hfacts
  rw [twoSpaces]
  refine ⟨hfacts.1, hfacts.2.1, ?_, ?_, hfacts.2.2.2.1, (goodKey_data_facts hk).1⟩
  · have := startsWithMark_key_false k hk [] (Or.inl rfl)
    rwa [List.append_nil] at this
  · rw [isKeyValueLine_eq, hfacts.2.2.1]
    simp

lemma row_objGet {x : Value} (hrow : goodRowObj x = true) {k : String}
    (hk : k ∈ jsKeys x) : ∃ w, objGet x k = some w ∧ goodPrim w = true := by
  obtain ⟨gs, rfl, -, hnd, hall⟩ := goodRowObj_elim hrow
  rw [jsKeys] at hk
  obtain ⟨w, hw⟩ := @objGet_of_mem_keys gs k hk
  exact ⟨w, hw, (hall (k, w) (objGet_mem hw)).2⟩

lemma rowLine_facts (keys : List String) (d : Nat) (x : Value)
    (hne : keys ≠ [])
    (hvals : ∀ k ∈ keys, ∃ w, objGet x k = some w ∧ goodPrim w = true) :
    jsTrimL (schemaRowLine keys d x) = joinWith ' ' (rowTokens keys x) ∧
    getIndentL (schemaRowLine keys d x) = ((2 * d + 2 : Nat) : Int) ∧
    tokenizeL (joinWith ' ' (rowTokens keys x)) = rowTokens keys x ∧
    '\n' ∉ schemaRowLine keys d x ∧
    jsTrimL (schemaRowLine keys d x) ≠ [] := by
  have htoks : ∀ t ∈ rowTokens keys x, GoodTok t := by
    intro t ht
    rw [rowTokens, List.mem_map] at ht
    obtain ⟨k, hkmem, hkeq⟩ := ht
    replace hkeq : (match objGet x k with
      | some w => formatValueL w
      | none => "undefined".data) = t := hkeq
    obtain ⟨w, hw, hwp⟩ := hvals k hkmem
    rw [← hkeq, hw]
    exact goodTok_format hwp
  have hrowne : rowTokens keys x ≠ [] := by
    rw [rowTokens]
    simpa using hne
  have hfacts := lineFacts (2 * d + 2) (rowTokens keys x) hrowne htoks
  rw [schemaRowLine_eq, hfacts.1]
  exact ⟨rfl, hfacts.2.1, hfacts.2.2.1, hfacts.2.2.2.1, hfacts.2.2.2.2⟩

lemma row_parse (keys : List String) (hnd : keys.Nodup) (x : Value)
    (hvals : ∀ k ∈ keys, ∃ w, objGet x k = some w ∧ goodPrim w = true) :
    schemaRow keys (rowTokens keys x) =
      Value.vobj (keys.map (fun k => (k, (objGet x k).getD Value.vnull))) := by
  rw [show rowTokens keys x = keys.map (fun k =>
    match objGet x k with
    | some w => formatValueL w
    | none => "undefined".data) from rfl]
  rw [schemaRow_eval keys hnd]
  congr 1
  refine List.map_congr_left ?_
  intro k hk
  obtain ⟨w, hw, hwp⟩ := hvals k hk
  rw [hw]
  show (k, parseValueL (formatValueL w)) = (k, w)
  rw [parse_format_token (goodPrim_token hwp)]

/-! Heads and per-line sanity of the encoder line lists. -/

lemma simple_entries_good {g : Nat} {fs : List (String × Value)}
    (hall : ∀ p ∈ fs, goodKey p.1 = true ∧
      (if isJsObject p.2 then goodF g p.2 = true else goodPrim p.2 = true)) :
    ∀ p ∈ fs.filter (fun p => !(isJsObject p.2)),
      goodKey p.1 = true ∧ goodPrim p.2 = true := by
  intro p hp
  have hmem := List.mem_of_mem_filter hp
  have hpred := List.of_mem_filter hp
  have hno : isJsObject p.2 = false := by simpa using hpred
  refine ⟨(hall p hmem).1, ?_⟩
  have h2 := (hall p hmem).2
  rwa [if_neg (by simp [hno])] at h2

lemma arr_keys_facts {x0 : Value} (h : goodRowObj x0 = true) :
    jsKeys x0 ≠ [] ∧ (jsKeys x0).Nodup ∧
      ∀ k ∈ jsKeys x0, goodKey k = true := by
  obtain ⟨gs, rfl, hne, hnd, hall⟩ := goodRowObj_elim h
  rw [jsKeys]
  refine ⟨by simpa using hne, hnd, ?_⟩
  intro k hk
  obtain ⟨p, hp, hpk⟩ := List.mem_map.1 hk
  replace hpk : p.1 = k := hpk
  rw [← hpk]
  exact (hall p hp).1

lemma arr_keys_data_facts {x0 : Value} (h : goodRowObj x0 = true) :
    ∀ k ∈ jsKeys x0, k.data ≠ [] ∧ ∀ c ∈ k.data, isJsWs c = false :=
  fun k hk => goodKey_data_facts ((arr_keys_facts h).2.2 k hk)

lemma row_vals {x0 x : Value} (hrow : goodRowObj x = true)
    (hsort : sortKeys (jsKeys x) = sortKeys (jsKeys x0)) :
    ∀ k ∈ jsKeys x0, ∃ w, objGet x k = some w ∧ goodPrim w = true := by
  intro k hk
  have hperm := perm_of_sortKeys_eq hsort
  exact row_objGet hrow (hperm.mem_iff.2 hk)

lemma blockLines_head_facts (g : Nat) (d : Nat) :
    ∀ (fs : List (String × Value)),
      (∀ p ∈ fs, goodKey p.1 = true) →
      ∀ l, (blockLinesF g fs d).head? = some l →
        getIndentL l = ((2 * d : Nat) : Int) ∧
        startsWithMark (jsTrimL l) = false := by
  intro fs
  induction fs with
  | nil =>
    intro _ l hl
    simp [blockLinesF] at hl
  | cons p t ih =>
    intro hgood l hl
    obtain ⟨k, v⟩ := p
    rw [show blockLinesF g ((k, v) :: t) d =
      (if isJsObject v then (twoSpaces d ++ k.data) ::
        (encLinesF g v (d + 1) ++ blockLinesF g t d)
       else blockLinesF g t d) from rfl] at hl
    by_cases hobj : isJsObject v
    · rw [if_pos hobj, List.head?_cons] at hl
      injection hl with hl
      subst hl
      have hkf := keyLine_facts k (hgood (k, v) (by simp)) d
      exact ⟨hkf.2.1, by rw [hkf.1]; exact hkf.2.2.1⟩
    · rw [if_neg hobj] at hl
      exact ih (fun q hq => hgood q (by simp [hq])) l hl

lemma encLines_head_facts (g : Nat) (v : Value) (d : Nat)
    (hg : goodF g v = true) (hobj : isJsObject v = true) :
    ∃ l0 r0, encLinesF g v d = l0 :: r0 ∧
      getIndentL l0 = ((2 * d : Nat) : Int) := by
  cases g with
  | zero =>
    rw [show goodF 0 v = false from rfl] at hg
    simp at hg
  | succ gg =>
    cases v with
    | vnull => simp [isJsObject] at hobj
    | vbool b => simp [isJsObject] at hobj
    | vnum n => simp [isJsObject] at hobj
    | vstr s => simp [isJsObject] at hobj
    | varr xs =>
      obtain ⟨x0, xr, rfl, hlen, hall⟩ := goodF_arr_elim hg
      have hrow0 := (hall x0 (by simp)).1
      refine ⟨markerLineOf (jsKeys x0) d,
        (x0 :: xr).map (schemaRowLine (jsKeys x0) d), rfl, ?_⟩
      exact (markerLine_facts (jsKeys x0) d (arr_keys_facts hrow0).1
        (arr_keys_data_facts hrow0)).2.1
    | vobj fs =>
      obtain ⟨hfne, hnd, hall⟩ := goodF_obj_elim hg
      rw [show encLinesF (gg + 1) (Value.vobj fs) d =
        (if (fs.filter (fun p => !(isJsObject p.2))).isEmpty then []
         else [simplePairsLine fs d]) ++ blockLinesF gg fs d from rfl]
      by_cases hemp : (fs.filter (fun p => !(isJsObject p.2))).isEmpty
      · rw [if_pos hemp, List.nil_append]
        obtain ⟨⟨k0, v0⟩, t0, rfl⟩ := List.exists_cons_of_ne_nil hfne
        have hv0 : isJsObject v0 = true := by
          rw [List.isEmpty_iff, List.filter_eq_nil_iff] at hemp
          have := hemp (k0, v0) (by simp)
          simpa using this
        rw [show blockLinesF gg ((k0, v0) :: t0) d =
          (if isJsObject v0 then (twoSpaces d ++ k0.data) ::
            (encLinesF gg v0 (d + 1) ++ blockLinesF gg t0 d)
           else blockLinesF gg t0 d) from rfl]
        rw [if_pos hv0]
        refine ⟨_, _, rfl, ?_⟩
        exact (keyLine_facts k0 (hall (k0, v0) (by simp)).1 d).2.1
      · rw [if_neg hemp, List.cons_append]
        refine ⟨simplePairsLine fs d, blockLinesF gg fs d, ?_, ?_⟩
        · rw [List.nil_append]
        · exact (pairsLine_facts fs d (simple_entries_good hall)
            (fun hnil => hemp (List.isEmpty_iff.2 hnil))).1

lemma encLines_lines_ok :
    ∀ (g : Nat) (v : Value) (d : Nat), goodF g v = true →
      ∀ l ∈ encLinesF g v d, '\n' ∉ l ∧ jsTrimL l ≠ [] := by
  intro g
  induction g with
  | zero =>
    intro v d hg
    rw [show goodF 0 v = false from rfl] at hg
    simp at hg
  | succ gg ih =>
    intro v d hg l hl
    cases v with
    | vnull => rw [show goodF (gg + 1) Value.vnull = false from rfl] at hg; simp at hg
    | vbool b => rw [show goodF (gg + 1) (Value.vbool b) = false from rfl] at hg; simp at hg
    | vnum n => rw [show goodF (gg + 1) (Value.vnum n) = false from rfl] at hg; simp at hg
    | vstr s => rw [show goodF (gg + 1) (Value.vstr s) = false from rfl] at hg; simp at hg
    | varr xs =>
      obtain ⟨x0, xr, rfl, hlen, hall⟩ := goodF_arr_elim hg
      have hrow0 := (hall x0 (by simp)).1
      rw [show encLinesF (gg + 1) (Value.varr (x0 :: xr)) d =
        markerLineOf (jsKeys x0) d ::
          (x0 :: xr).map (schemaRowLine (jsKeys x0) d) from rfl] at hl
      rcases List.mem_cons.1 hl with rfl | hl
      · have hm := markerLine_facts (jsKeys x0) d (arr_keys_facts hrow0).1
          (arr_keys_data_facts hrow0)
        exact ⟨hm.2.2.1, hm.2.2.2⟩
      · obtain ⟨x, hx, rfl⟩ := List.mem_map.1 hl
        have hr := rowLine_facts (jsKeys x0) d x (arr_keys_facts hrow0).1
          (row_vals (hall x hx).1 (hall x hx).2)
        exact ⟨hr.2.2.2.1, hr.2.2.2.2⟩
    | vobj fs =>
      obtain ⟨hfne, hnd, hall⟩ := goodF_obj_elim hg
      rw [show encLinesF (gg + 1) (Value.vobj fs) d =
        (if (fs.filter (fun p => !(isJsObject p.2))).isEmpty then []
         else [simplePairsLine fs d]) ++ blockLinesF gg fs d from rfl] at hl
      have hblk : ∀ (fs2 : List (String × Value)) (d2 : Nat),
          (∀ p ∈ fs2, goodKey p.1 = true ∧
            (if isJsObject p.2 then goodF gg p.2 = true
             else goodPrim p.2 = true)) →
          ∀ l2 ∈ blockLinesF gg fs2 d2, '\n' ∉ l2 ∧ jsTrimL l2 ≠ [] := by
        intro fs2
        induction fs2 with
        | nil =>
          intro d2 _ l2 hl2
          simp [blockLinesF] at hl2
        | cons p t iht =>
          intro d2 hgood2 l2 hl2
          obtain ⟨k, v⟩ := p
          rw [show blockLinesF gg ((k, v) :: t) d2 =
            (if isJsObject v then (twoSpaces d2 ++ k.data) ::
              (encLinesF gg v (d2 + 1) ++ blockLinesF gg t d2)
             else blockLinesF gg t d2) from rfl] at hl2
          by_cases hobj : isJsObject v
          · rw [if_pos hobj] at hl2
            rcases List.mem_cons.1 hl2 with rfl | hl2
            · have hkf := keyLine_facts k (hgood2 (k, v) (by simp)).1 d2
              exact ⟨hkf.2.2.2.2.1, by rw [hkf.1]; exact hkf.2.2.2.2.2⟩
            · rcases List.mem_append.1 hl2 with hl2 | hl2
              · have hchild := (hgood2 (k, v) (by simp)).2
                rw [if_pos hobj] at hchild
                exact ih v (d2 + 1) hchild l2 hl2
              · exact iht d2 (fun q hq => hgood2 q (by simp [hq])) l2 hl2
          · rw [if_neg hobj] at hl2
            exact iht d2 (fun q hq => hgood2 q (by simp [hq])) l2 hl2
      rcases List.mem_append.1 hl with hl | hl
      · by_cases hemp : (fs.filter (fun p => !(isJsObject p.2))).isEmpty
        · rw [if_pos hemp] at hl
          simp at hl
        · rw [if_neg hemp, List.mem_singleton] at hl
          subst hl
          have hp := pairsLine_facts fs d (simple_entries_good hall)
            (fun hnil => hemp (List.isEmpty_iff.2 hnil))
          exact ⟨hp.2.2.2.2.1, hp.2.2.2.2.2⟩
      · exact hblk fs d hall l hl

/-! The encoder output is the newline join of the encoder line list. -/

lemma encLinesF_ne_nil {g : Nat} {v : Value} (hg : goodF g v = true)
    (hobj : isJsObject v = true) (d : Nat) : encLinesF g v d ≠ [] := by
  obtain ⟨l0, r0, heq, -⟩ := encLines_head_facts g v d hg hobj
  rw [heq]
  simp

lemma encodeL_join :
    ∀ (g : Nat) (v : Value) (d : Nat), goodF g v = true →
      encodeL v d = joinWith '\n' (encLinesF g v d) := by
  intro g
  induction g with
  | zero =>
    intro v d hg
    rw [show goodF 0 v = false from rfl] at hg
    simp at hg
  | succ gg ih =>
    intro v d hg
    cases v with
    | vnull => rw [show goodF (gg + 1) Value.vnull = false from rfl] at hg; simp at hg
    | vbool b => rw [show goodF (gg + 1) (Value.vbool b) = false from rfl] at hg; simp at hg
    | vnum n => rw [show goodF (gg + 1) (Value.vnum n) = false from rfl] at hg; simp at hg
    | vstr s => rw [show goodF (gg + 1) (Value.vstr s) = false from rfl] at hg; simp at hg
    | varr xs =>
      obtain ⟨x0, xr, rfl, hlen, hall⟩ := goodF_arr_elim hg
      rw [show encodeL (Value.varr (x0 :: xr)) d =
        (if decide (1 < (x0 :: xr).length) && hasUniformStructure (x0 :: xr) then
          encodeWithSchemaL (x0 :: xr) d
         else if (x0 :: xr).all (fun item => !(isJsObject item)) then
          twoSpaces d ++ joinWith ' ' ((x0 :: xr).map formatValueL)
         else joinWith '\n' (encodeEach (x0 :: xr) d)) from rfl]
      rw [if_pos (by
        rw [Bool.and_eq_true]
        exact ⟨by simpa using hlen, goodF_hasUniform hg⟩)]
      rw [show joinWith '\n' (encLinesF (gg + 1) (Value.varr (x0 :: xr)) d) =
        markerLineOf (jsKeys x0) d ++ '\n' ::
          joinWith '\n' ((x0 :: xr).map (schemaRowLine (jsKeys x0) d)) from rfl]
      rw [show encodeWithSchemaL (x0 :: xr) d =
        twoSpaces d ++ ("$S ".data ++
          joinWith ' ' ((jsKeys x0).map (fun k => k.data))) ++
          '\n' :: joinWith '\n' ((x0 :: xr).map (schemaRowLine (jsKeys x0) d))
        from rfl]
      rw [markerLineOf]
      rw [List.append_assoc (twoSpaces d) ("$S ".data)
        (joinWith ' ' ((jsKeys x0).map (fun k => k.data)))]
    | vobj fs =>
      obtain ⟨hfne, hnd, hall⟩ := goodF_obj_elim hg
      have hblocks : ∀ (fs2 : List (String × Value)),
          (∀ p ∈ fs2, goodKey p.1 = true ∧
            (if isJsObject p.2 then goodF gg p.2 = true
             else goodPrim p.2 = true)) →
          ∀ front : List Chars,
            joinWith '\n' (front ++ encodeBlocks fs2 d) =
              joinWith '\n' (front ++ blockLinesF gg fs2 d) := by
        intro fs2
        induction fs2 with
        | nil => intro _ front; rfl
        | cons p t iht =>
          intro hgood2 front
          obtain ⟨k, v⟩ := p
          rw [show encodeBlocks ((k, v) :: t) d =
            (if isJsObject v then (twoSpaces d ++ k.data) ::
              encodeL v (d + 1) :: encodeBlocks t d
             else encodeBlocks t d) from rfl]
          rw [show blockLinesF gg ((k, v) :: t) d =
            (if isJsObject v then (twoSpaces d ++ k.data) ::
              (encLinesF gg v (d + 1) ++ blockLinesF gg t d)
             else blockLinesF gg t d) from rfl]
          by_cases hobj : isJsObject v
          · rw [if_pos hobj, if_pos hobj]
            have hchild := (hgood2 (k, v) (by simp)).2
            rw [if_pos hobj] at hchild
            rw [ih v (d + 1) hchild]
            have hbs_ne : encLinesF gg v (d + 1) ≠ [] :=
              encLinesF_ne_nil hchild hobj (d + 1)
            have hstep := iht (fun q hq => hgood2 q (by simp [hq]))
              (front ++ (twoSpaces d ++ k.data) :: encLinesF gg v (d + 1))
            rw [show (front ++ (twoSpaces d ++ k.data) ::
                encLinesF gg v (d + 1)) ++ encodeBlocks t d =
              front ++ (twoSpaces d ++ k.data) ::
                (encLinesF gg v (d + 1) ++ encodeBlocks t d) by simp] at hstep
            rw [show (front ++ (twoSpaces d ++ k.data) ::
                encLinesF gg v (d + 1)) ++ blockLinesF gg t d =
              front ++ (twoSpaces d ++ k.data) ::
                (encLinesF gg v (d + 1) ++ blockLinesF gg t d) by simp] at hstep
            rw [show front ++ (twoSpaces d ++ k.data) ::
                joinWith '\n' (encLinesF gg v (d + 1)) :: encodeBlocks t d =
              (front ++ [twoSpaces d ++ k.data]) ++
                joinWith '\n' (encLinesF gg v (d + 1)) :: encodeBlocks t d
              by simp]
            rw [joinWith_unflatten '\n' _ hbs_ne]
            rw [show (front ++ [twoSpaces d ++ k.data]) ++
                (encLinesF gg v (d + 1) ++ encodeBlocks t d) =
              front ++ (twoSpaces d ++ k.data) ::
                (encLinesF gg v (d + 1) ++ encodeBlocks t d) by simp]
            exact hstep
          · rw [if_neg hobj, if_neg hobj]
            exact iht (fun q hq => hgood2 q (by simp [hq])) front
      rw [show encodeL (Value.vobj fs) d =
        joinWith '\n' ((if (fs.filter (fun p => !(isJsObject p.2))).isEmpty then []
          else [simplePairsLine fs d]) ++ encodeBlocks fs d) from rfl]
      rw [show encLinesF (gg + 1) (Value.vobj fs) d =
        (if (fs.filter (fun p => !(isJsObject p.2))).isEmpty then []
         else [simplePairsLine fs d]) ++ blockLinesF gg fs d from rfl]
      exact hblocks fs hall _

/-! Stepping the fuelled decoder loops, and the shallow-suffix invariant. -/

lemma parseLinesF_step (f : Nat) (l : Chars) (rest : List Chars) :
    parseLinesF (f + 1) (l :: rest) =
      (if startsWithMark (jsTrimL l) then parseSchemaL l rest
       else objLoopF f (getIndentL l) [] (l :: rest)) := rfl

lemma objLoopF_step (f : Nat) (base : Int) (obj : List (String × Value))
    (l : Chars) (rest : List Chars) :
    objLoopF (f + 1) base obj (l :: rest) =
      (if getIndentL l < base then (Value.vobj obj, l :: rest)
       else if base < getIndentL l then objLoopF f base obj rest
       else if startsWithMark (jsTrimL l) then parseSchemaL l rest
       else if isKeyValueLine (jsTrimL l) then
         objLoopF f base (mergePairs obj (pairsOf (tokenizeL (jsTrimL l)))) rest
       else
         match rest with
         | [] => objLoopF f base (objAssign obj (String.mk (jsTrimL l))
             Value.vnull) []
         | l2 :: _ =>
           if getIndentL l < getIndentL l2 then
             objLoopF f base (objAssign obj (String.mk (jsTrimL l))
               (parseLinesF f rest).1) (parseLinesF f rest).2
           else objLoopF f base (objAssign obj (String.mk (jsTrimL l))
             Value.vnull) rest) := rfl

lemma objLoopF_step_cons (f : Nat) (base : Int) (obj : List (String × Value))
    (l l2 : Chars) (r2 : List Chars) :
    objLoopF (f + 1) base obj (l :: l2 :: r2) =
      (if getIndentL l < base then (Value.vobj obj, l :: l2 :: r2)
       else if base < getIndentL l then objLoopF f base obj (l2 :: r2)
       else if startsWithMark (jsTrimL l) then parseSchemaL l (l2 :: r2)
       else if isKeyValueLine (jsTrimL l) then
         objLoopF f base (mergePairs obj (pairsOf (tokenizeL (jsTrimL l))))
           (l2 :: r2)
       else if getIndentL l < getIndentL l2 then
         objLoopF f base (objAssign obj (String.mk (jsTrimL l))
           (parseLinesF f (l2 :: r2)).1) (parseLinesF f (l2 :: r2)).2
       else objLoopF f base (objAssign obj (String.mk (jsTrimL l)) Value.vnull)
         (l2 :: r2)) := rfl

lemma parseSchemaL_eq (m : Chars) (rest : List Chars) :
    parseSchemaL m rest =
      (Value.varr (schemaRows (markerKeys m) (getIndentL m) rest).1,
       (schemaRows (markerKeys m) (getIndentL m) rest).2) := rfl

/-- The lines after an encoded block sit strictly shallower than the block. -/
def PostOk (d : Nat) (post : List Chars) : Prop :=
  ∀ l, post.head? = some l → getIndentL l < ((2 * d : Nat) : Int)

lemma postOk_nil (d : Nat) : PostOk d [] := by
  intro l hl
  simp at hl

/-- The decoder object loop consumes exactly the block lines of a good
field list, building the normalized complex fields after the given
accumulator, and stops at the first shallower line. -/
lemma objLoop_blocks (g : Nat)
    (hA : ∀ (v : Value) (d : Nat) (post : List Chars) (f : Nat),
      goodF g v = true → PostOk d post →
      2 * ((encLinesF g v d).length + post.length) + 2 ≤ f →
      parseLinesF f (encLinesF g v d ++ post) = (normalizeV v, post)) :
    ∀ (fs obj : List (String × Value)) (d : Nat) (post : List Chars) (f : Nat),
      (∀ p ∈ fs, goodKey p.1 = true ∧
        (if isJsObject p.2 then goodF g p.2 = true else goodPrim p.2 = true)) →
      (obj.map Prod.fst ++
        (fs.filter (fun p => isJsObject p.2)).map Prod.fst).Nodup →
      PostOk d post →
      2 * ((blockLinesF g fs d).length + post.length) + 1 ≤ f →
      objLoopF f ((2 * d : Nat) : Int) obj (blockLinesF g fs d ++ post) =
        (Value.vobj (obj ++ normFields fs), post) := by
  intro fs
  induction fs with
  | nil =>
    intro obj d post f _ _ hpost hf
    rw [show blockLinesF g [] d = [] from rfl, List.nil_append,
      show normFields [] = [] from rfl, List.append_nil]
    obtain ⟨f2, rfl⟩ : ∃ f2, f = f2 + 1 := ⟨f - 1, by omega⟩
    cases post with
    | nil => rfl
    | cons l rest =>
      rw [objLoopF_step, if_pos (hpost l rfl)]
  | cons p t iht =>
    intro obj d post f hgood hnd hpost hf
    obtain ⟨k, v⟩ := p
    have hkey : goodKey k = true := (hgood (k, v) (by simp)).1
    by_cases hobj : isJsObject v
    · -- complex entry: a key line, the child block, then the rest
      have hchild : goodF g v = true := by
        have h2 := (hgood (k, v) (by simp)).2
        rwa [if_pos hobj] at h2
      have hhead : blockLinesF g ((k, v) :: t) d =
          (twoSpaces d ++ k.data) ::
            (encLinesF g v (d + 1) ++ blockLinesF g t d) := by
        rw [show blockLinesF g ((k, v) :: t) d =
          (if isJsObject v then (twoSpaces d ++ k.data) ::
            (encLinesF g v (d + 1) ++ blockLinesF g t d)
           else blockLinesF g t d) from rfl, if_pos hobj]
      obtain ⟨l2, r2, henc, hl2ind⟩ :=
        encLines_head_facts g v (d + 1) hchild hobj
      have hkf := keyLine_facts k hkey d
      obtain ⟨f2, rfl⟩ : ∃ f2, f = f2 + 1 := ⟨f - 1, by
        rw [hhead] at hf
        simp only [List.length_cons] at hf
        omega⟩
      rw [hhead, henc, List.cons_append, List.cons_append, List.cons_append,
        List.append_assoc]
      rw [objLoopF_step_cons]
      rw [hkf.1, hkf.2.1]
      rw [if_neg (lt_irrefl _), if_neg (lt_irrefl _),
        if_neg (by simp [hkf.2.2.1]), if_neg (by simp [hkf.2.2.2.1]), hl2ind,
        if_pos (show ((2 * d : Nat) : Int) < ((2 * (d + 1) : Nat) : Int) from
          Nat.cast_lt.2 (by omega))]
      have hpost2 : PostOk (d + 1) (blockLinesF g t d ++ post) := by
        intro l3 hl3
        cases hbt : blockLinesF g t d with
        | nil =>
          rw [hbt, List.nil_append] at hl3
          exact lt_trans (hpost l3 hl3) (Nat.cast_lt.2 (by omega))
        | cons b bs =>
          rw [hbt, List.cons_append, List.head?_cons] at hl3
          injection hl3 with hl3
          have hb := blockLines_head_facts g d t
            (fun q hq => (hgood q (by simp [hq])).1) b (by rw [hbt]; rfl)
          rw [← hl3, hb.1]
          exact Nat.cast_lt.2 (by omega)
      have hAres := hA v (d + 1) (blockLinesF g t d ++ post) f2 hchild hpost2 (by
        rw [hhead] at hf
        simp only [List.length_cons, List.length_append] at hf ⊢
        omega)
      rw [henc] at hAres
      rw [show (l2 :: r2) ++ (blockLinesF g t d ++ post) =
        l2 :: (r2 ++ (blockLinesF g t d ++ post)) from rfl] at hAres
      rw [hAres]
      rw [string_eta k]
      show objLoopF f2 ((2 * d : Nat) : Int)
        (objAssign obj k (normalizeV v)) (blockLinesF g t d ++ post) =
        (Value.vobj (obj ++ normFields ((k, v) :: t)), post)
      have hfresh : k ∉ obj.map Prod.fst := by
        rw [List.filter_cons, if_pos (by simp [hobj]), List.map_cons] at hnd
        rw [List.nodup_append] at hnd
        intro hmem
        exact hnd.2.2 hmem (by simp)
      rw [objAssign_fresh obj k (normalizeV v) hfresh]
      rw [show normFields ((k, v) :: t) =
        (if isJsObject v then (k, normalizeV v) :: normFields t
         else normFields t) from rfl, if_pos hobj]
      rw [List.append_cons obj (k, normalizeV v) (normFields t)]
      refine iht (obj ++ [(k, normalizeV v)]) d post f2
        (fun q hq => hgood q (by simp [hq])) ?_ hpost (by
          rw [hhead] at hf
          simp only [List.length_cons, List.length_append] at hf ⊢
          omega)
      rw [List.filter_cons, if_pos (by simp [hobj]), List.map_cons,
        List.append_cons] at hnd
      simpa using hnd
    · -- simple entry: contributes no block line and no normalized field
      have hblk : blockLinesF g ((k, v) :: t) d = blockLinesF g t d := by
        rw [show blockLinesF g ((k, v) :: t) d =
          (if isJsObject v then (twoSpaces d ++ k.data) ::
            (encLinesF g v (d + 1) ++ blockLinesF g t d)
           else blockLinesF g t d) from rfl, if_neg hobj]
      rw [hblk, show normFields ((k, v) :: t) =
        (if isJsObject v then (k, normalizeV v) :: normFields t
         else normFields t) from rfl, if_neg hobj]
      refine iht obj d post f (fun q hq => hgood q (by simp [hq])) ?_ hpost (by
        rw [hblk] at hf
        exact hf)
      rw [List.filter_cons, if_neg (by simp [hobj])] at hnd
      exact hnd

/-- The decoder rebuilds the normalized tree from the encoder lines of a
good value and stops exactly at the first shallower following line. -/
lemma parse_encLines :
    ∀ (g : Nat) (v : Value) (d : Nat) (post : List Chars) (f : Nat),
      goodF g v = true → PostOk d post →
      2 * ((encLinesF g v d).length + post.length) + 2 ≤ f →
      parseLinesF f (encLinesF g v d ++ post) = (normalizeV v, post) := by
  intro g
  induction g with
  | zero =>
    intro v d post f hg
    rw [show goodF 0 v = false from rfl] at hg
    simp at hg
  | succ gg ih =>
    have hB := objLoop_blocks gg ih
    intro v d post f hg hpost hf
    cases v with
    | vnull => rw [show goodF (gg + 1) Value.vnull = false from rfl] at hg; simp at hg
    | vbool b => rw [show goodF (gg + 1) (Value.vbool b) = false from rfl] at hg; simp at hg
    | vnum n => rw [show goodF (gg + 1) (Value.vnum n) = false from rfl] at hg; simp at hg
    | vstr s => rw [show goodF (gg + 1) (Value.vstr s) = false from rfl] at hg; simp at hg
    | varr xs =>
      obtain ⟨x0, xr, rfl, hlen, hall⟩ := goodF_arr_elim hg
      have hrow0 := (hall x0 (by simp)).1
      have hkf := arr_keys_facts hrow0
      have hm := markerLine_facts (jsKeys x0) d hkf.1 (arr_keys_data_facts hrow0)
      have hencpat : encLinesF (gg + 1) (Value.varr (x0 :: xr)) d =
          markerLineOf (jsKeys x0) d ::
            (x0 :: xr).map (schemaRowLine (jsKeys x0) d) := rfl
      rw [hencpat] at hf ⊢
      obtain ⟨f2, rfl⟩ : ∃ f2, f = f2 + 1 := ⟨f - 1, by
        simp only [List.length_cons] at hf
        omega⟩
      rw [List.cons_append, parseLinesF_step, if_pos hm.1, parseSchemaL_eq]
      rw [markerKeys_of (jsKeys x0) d hkf.1 (arr_keys_data_facts hrow0), hm.2.1]
      rw [schemaRows_split (jsKeys x0) ((2 * d : Nat) : Int) _ post ?hrows ?hpost2]
      case hrows =>
        intro r hr
        obtain ⟨x, hx, rfl⟩ := List.mem_map.1 hr
        have hrl := rowLine_facts (jsKeys x0) d x hkf.1
          (row_vals (hall x hx).1 (hall x hx).2)
        rw [hrl.2.1]
        exact Nat.cast_lt.2 (by omega)
      case hpost2 =>
        intro l hl
        exact le_of_lt (hpost l hl)
      show (Value.varr (((x0 :: xr).map (schemaRowLine (jsKeys x0) d)).map
        (fun r => schemaRow (jsKeys x0) (tokenizeL (jsTrimL r)))), post) = _
      rw [show normalizeV (Value.varr (x0 :: xr)) =
        Value.varr ((x0 :: xr).map (fun x => Value.vobj ((jsKeys x0).map
          (fun k => (k, (objGet x k).getD Value.vnull))))) from rfl]
      rw [List.map_map]
      refine congrArg (fun z => (Value.varr z, post)) ?_
      refine List.map_congr_left ?_
      intro x hx
      show schemaRow (jsKeys x0) (tokenizeL (jsTrimL
        (schemaRowLine (jsKeys x0) d x))) = _
      have hrl := rowLine_facts (jsKeys x0) d x hkf.1
        (row_vals (hall x hx).1 (hall x hx).2)
      rw [hrl.1, hrl.2.2.1]
      exact row_parse (jsKeys x0) hkf.2.1 x
        (row_vals (hall x hx).1 (hall x hx).2)
    | vobj fs =>
      obtain ⟨hfne, hnd, hall⟩ := goodF_obj_elim hg
      have hencpat : encLinesF (gg + 1) (Value.vobj fs) d =
          (if (fs.filter (fun p => !(isJsObject p.2))).isEmpty then []
           else [simplePairsLine fs d]) ++ blockLinesF gg fs d := rfl
      have hnormpat : normalizeV (Value.vobj fs) =
          Value.vobj (fs.filter (fun p => !(isJsObject p.2)) ++ normFields fs) :=
        rfl
      have hcomplex_nd :
          ((fs.filter (fun p => isJsObject p.2)).map Prod.fst).Nodup :=
        hnd.sublist (List.Sublist.map Prod.fst (List.filter_sublist fs))
      by_cases hemp : (fs.filter (fun p => !(isJsObject p.2))).isEmpty
      · -- no simple pairs: the block lines begin with a complex key line
        have hsimp_nil : fs.filter (fun p => !(isJsObject p.2)) = [] :=
          List.isEmpty_iff.1 hemp
        rw [hencpat, if_pos hemp, List.nil_append] at hf ⊢
        obtain ⟨⟨k0, v0⟩, t0, rfl⟩ := List.exists_cons_of_ne_nil hfne
        have hv0 : isJsObject v0 = true := by
          rw [List.filter_eq_nil_iff] at hsimp_nil
          have := hsimp_nil (k0, v0) (by simp)
          simpa using this
        have hk0 : goodKey k0 = true := (hall (k0, v0) (by simp)).1
        have hkf0 := keyLine_facts k0 hk0 d
        have hhead : blockLinesF gg ((k0, v0) :: t0) d =
            (twoSpaces d ++ k0.data) ::
              (encLinesF gg v0 (d + 1) ++ blockLinesF gg t0 d) := by
          rw [show blockLinesF gg ((k0, v0) :: t0) d =
            (if isJsObject v0 then (twoSpaces d ++ k0.data) ::
              (encLinesF gg v0 (d + 1) ++ blockLinesF gg t0 d)
             else blockLinesF gg t0 d) from rfl, if_pos hv0]
        obtain ⟨f2, rfl⟩ : ∃ f2, f = f2 + 1 := ⟨f - 1, by
          rw [hhead] at hf
          simp only [List.length_cons] at hf
          omega⟩
        rw [hhead, List.cons_append, parseLinesF_step,
          if_neg (by rw [hkf0.1]; simp [hkf0.2.2.1]), hkf0.2.1]
        rw [← List.cons_append, ← hhead]
        rw [hB ((k0, v0) :: t0) [] d post f2 hall
          (by simpa using hcomplex_nd) hpost (by
            rw [hhead] at hf ⊢
            simp only [List.length_cons] at hf ⊢
            omega)]
        rw [hnormpat, hsimp_nil, List.nil_append]
      · -- a simple-pairs line, then the block lines
        have hsimp_ne : fs.filter (fun p => !(isJsObject p.2)) ≠ [] :=
          fun hnil => hemp (List.isEmpty_iff.2 hnil)
        have hp := pairsLine_facts fs d (simple_entries_good hall) hsimp_ne
        rw [hencpat, if_neg hemp, List.singleton_append] at hf ⊢
        obtain ⟨f2, rfl⟩ : ∃ f2, f = f2 + 1 := ⟨f - 1, by
          simp only [List.length_cons] at hf
          omega⟩
        obtain ⟨f3, rfl⟩ : ∃ f3, f2 = f3 + 1 := ⟨f2 - 1, by
          simp only [List.length_cons] at hf
          omega⟩
        rw [List.cons_append, parseLinesF_step, if_neg (by simp [hp.2.1]),
          hp.1]
        rw [objLoopF_step, hp.1, if_neg (lt_irrefl _), if_neg (lt_irrefl _),
          if_neg (by simp [hp.2.1]), if_pos hp.2.2.1, hp.2.2.2.1]
        have hnd_simple : ((fs.filter (fun p => !(isJsObject p.2))).map
            Prod.fst).Nodup :=
          hnd.sublist (List.Sublist.map Prod.fst (List.filter_sublist fs))
        rw [mergePairs_fresh _ [] (by simp) hnd_simple, List.nil_append]
        have hperm : ((fs.filter (fun p => !(isJsObject p.2))).map Prod.fst ++
            (fs.filter (fun p => isJsObject p.2)).map Prod.fst).Nodup := by
          have hfp := List.filter_append_perm (fun p => !(isJsObject p.2)) fs
          have hfc : fs.filter (fun p => !!(isJsObject p.2)) =
              fs.filter (fun p => isJsObject p.2) :=
            List.filter_congr (fun a _ => by simp)
          rw [hfc] at hfp
          have hmapperm := hfp.map Prod.fst
          rw [List.map_append] at hmapperm
          exact (hmapperm.nodup_iff).2 hnd
        rw [hB fs (fs.filter (fun p => !(isJsObject p.2))) d post f3 hall
          hperm hpost (by
            simp only [List.length_cons] at hf
            omega)]
        rw [hnormpat]

/-! Normalization is invisible to the key-order-insensitive equality. -/

lemma keyPermEq_refl_prim {v : Value} (h : goodPrim v = true) :
    KeyPermEq v v := by
  match v with
  | Value.vnull => exact KeyPermEq.null
  | Value.vbool b => exact KeyPermEq.bool b
  | Value.vnum n => exact KeyPermEq.num n
  | Value.vstr s => exact KeyPermEq.str s
  | Value.varr xs =>
    rw [show goodPrim (Value.varr xs) = false from rfl] at h
    simp at h
  | Value.vobj fs =>
    rw [show goodPrim (Value.vobj fs) = false from rfl] at h
    simp at h

lemma keyPermEqFields_append :
    ∀ {a b c e : List (String × Value)},
      KeyPermEqFields a b → KeyPermEqFields c e →
      KeyPermEqFields (a ++ c) (b ++ e) := by
  intro a
  induction a with
  | nil =>
    intro b c e h1 h2
    cases h1
    exact h2
  | cons p t ih =>
    intro b c e h1 h2
    cases h1 with
    | cons k h tl => exact KeyPermEqFields.cons k h (ih tl h2)

lemma keyPermEqFields_refl {l : List (String × Value)}
    (h : ∀ p ∈ l, goodPrim p.2 = true) : KeyPermEqFields l l := by
  induction l with
  | nil => exact KeyPermEqFields.nil
  | cons p t ih =>
    obtain ⟨k, v⟩ := p
    exact KeyPermEqFields.cons k (keyPermEq_refl_prim (h (k, v) (by simp)))
      (ih (fun q hq => h q (by simp [hq])))

/-- A normalized schema row equals the row object up to key order. -/
lemma row_normalized_eq {x0 x : Value} (hrow : goodRowObj x = true)
    (hsort : sortKeys (jsKeys x) = sortKeys (jsKeys x0)) :
    KeyPermEq (Value.vobj ((jsKeys x0).map
      (fun k => (k, (objGet x k).getD Value.vnull)))) x := by
  obtain ⟨gs, rfl, hgne, hgnd, hgall⟩ := goodRowObj_elim hrow
  have hmapeq : (jsKeys (Value.vobj gs)).map
      (fun k => (k, (objGet (Value.vobj gs) k).getD Value.vnull)) = gs := by
    rw [show jsKeys (Value.vobj gs) = gs.map (fun p => p.1) from rfl]
    rw [List.map_map]
    have hpt : ∀ p ∈ gs,
        ((fun k => (k, (objGet (Value.vobj gs) k).getD Value.vnull)) ∘
          (fun p => p.1)) p = id p := by
      intro p hp
      show (p.1, (objGet (Value.vobj gs) p.1).getD Value.vnull) = p
      rw [objGet_of_mem hgnd (show (p.1, p.2) ∈ gs by simpa using hp)]
      rfl
    rw [List.map_congr_left hpt, List.map_id]
  refine @KeyPermEq.obj _ ((jsKeys x0).map
    (fun k => (k, (objGet (Value.vobj gs) k).getD Value.vnull))) _ ?_ ?_
  · refine keyPermEqFields_refl ?_
    intro p hp
    obtain ⟨k, hk, hpk⟩ := List.mem_map.1 hp
    obtain ⟨w, hw, hwp⟩ := row_vals hrow hsort k hk
    rw [← hpk]
    show goodPrim ((objGet (Value.vobj gs) k).getD Value.vnull) = true
    rw [hw]
    exact hwp
  · have hperm := ((perm_of_sortKeys_eq hsort).symm.map
      (fun k => (k, (objGet (Value.vobj gs) k).getD Value.vnull)))
    rw [hmapeq] at hperm
    exact hperm

lemma normalize_keyPermEq :
    ∀ (g : Nat) (v : Value), goodF g v = true →
      KeyPermEq (normalizeV v) v := by
  intro g
  induction g with
  | zero =>
    intro v hg
    rw [show goodF 0 v = false from rfl] at hg
    simp at hg
  | succ gg ih =>
    intro v hg
    cases v with
    | vnull => rw [show goodF (gg + 1) Value.vnull = false from rfl] at hg; simp at hg
    | vbool b => rw [show goodF (gg + 1) (Value.vbool b) = false from rfl] at hg; simp at hg
    | vnum n => rw [show goodF (gg + 1) (Value.vnum n) = false from rfl] at hg; simp at hg
    | vstr s => rw [show goodF (gg + 1) (Value.vstr s) = false from rfl] at hg; simp at hg
    | varr xs =>
      obtain ⟨x0, xr, rfl, hlen, hall⟩ := goodF_arr_elim hg
      rw [show normalizeV (Value.varr (x0 :: xr)) = Value.varr ((x0 :: xr).map
        (fun x => Value.vobj ((jsKeys x0).map
          (fun k => (k, (objGet x k).getD Value.vnull))))) from rfl]
      refine KeyPermEq.arr ?_
      have hrel : ∀ xs2 : List Value, (∀ x ∈ xs2, goodRowObj x = true ∧
          sortKeys (jsKeys x) = sortKeys (jsKeys x0)) →
          KeyPermEqList (xs2.map (fun x => Value.vobj ((jsKeys x0).map
            (fun k => (k, (objGet x k).getD Value.vnull))))) xs2 := by
        intro xs2
        induction xs2 with
        | nil => intro _; exact KeyPermEqList.nil
        | cons y ys ihy =>
          intro hall2
          exact KeyPermEqList.cons
            (row_normalized_eq (hall2 y (by simp)).1 (hall2 y (by simp)).2)
            (ihy (fun q hq => hall2 q (by simp [hq])))
      exact hrel (x0 :: xr) hall
    | vobj fs =>
      obtain ⟨hfne, hnd, hall⟩ := goodF_obj_elim hg
      rw [show normalizeV (Value.vobj fs) = Value.vobj
        (fs.filter (fun p => !(isJsObject p.2)) ++ normFields fs) from rfl]
      refine @KeyPermEq.obj _ (fs.filter (fun p => !(isJsObject p.2)) ++
        fs.filter (fun p => isJsObject p.2)) _ ?_ ?_
      · refine keyPermEqFields_append ?_ ?_
        · exact keyPermEqFields_refl
            (fun p hp => (simple_entries_good hall p hp).2)
        · have hcomp : ∀ fs2 : List (String × Value),
              (∀ p ∈ fs2, if isJsObject p.2 then goodF gg p.2 = true
                else True) →
              KeyPermEqFields (normFields fs2)
                (fs2.filter (fun p => isJsObject p.2)) := by
            intro fs2
            induction fs2 with
            | nil => intro _; exact KeyPermEqFields.nil
            | cons q t ihq =>
              intro hall2
              obtain ⟨k, w⟩ := q
              by_cases hq : isJsObject w
              · rw [show normFields ((k, w) :: t) =
                  (if isJsObject w then (k, normalizeV w) :: normFields t
                   else normFields t) from rfl, if_pos hq]
                rw [List.filter_cons, if_pos (by simp [hq])]
                have hgw := hall2 (k, w) (by simp)
                rw [if_pos hq] at hgw
                exact KeyPermEqFields.cons k (ih w hgw)
                  (ihq (fun r hr => hall2 r (by simp [hr])))
              · rw [show normFields ((k, w) :: t) =
                  (if isJsObject w then (k, normalizeV w) :: normFields t
                   else normFields t) from rfl, if_neg hq]
                rw [List.filter_cons, if_neg (by simp [hq])]
                exact ihq (fun r hr => hall2 r (by simp [hr]))
          refine hcomp fs ?_
          intro p hp
          by_cases hq : isJsObject p.2
          · rw [if_pos hq]
            have := (hall p hp).2
            rwa [if_pos hq] at this
          · rw [if_neg hq]
            trivial
      · have hfp := List.filter_append_perm (fun p => !(isJsObject p.2)) fs
        have hfc : fs.filter (fun p => !!(isJsObject p.2)) =
            fs.filter (fun p => isJsObject p.2) :=
          List.filter_congr (fun a _ => by simp)
        rw [hfc] at hfp
        exact hfp

/-! C1: the round trip. -/

lemma decode_eq (s : String) :
    decode s = (parseLinesF (2 * (decodeLines s).length + 2)
      (decodeLines s)).1 := rfl

/-- On the good domain the decoder rebuilds exactly the normalized tree. -/
lemma decode_encode_good {g : Nat} {v : Value} (hg : goodF g v = true) :
    decode (encode v 0) = normalizeV v := by
  have hobj : isJsObject v = true := by
    cases g with
    | zero =>
      rw [show goodF 0 v = false from rfl] at hg
      simp at hg
    | succ gg =>
      cases v with
      | vnull => rw [show goodF (gg + 1) Value.vnull = false from rfl] at hg; simp at hg
      | vbool b => rw [show goodF (gg + 1) (Value.vbool b) = false from rfl] at hg; simp at hg
      | vnum n => rw [show goodF (gg + 1) (Value.vnum n) = false from rfl] at hg; simp at hg
      | vstr s => rw [show goodF (gg + 1) (Value.vstr s) = false from rfl] at hg; simp at hg
      | varr xs => rfl
      | vobj fs => rfl
  have hlines := encodeL_join g v 0 hg
  have hok := encLines_lines_ok g v 0 hg
  have hne : encLinesF g v 0 ≠ [] := encLinesF_ne_nil hg hobj 0
  have hdl : decodeLines (encode v 0) = encLinesF g v 0 := by
    rw [decodeLines, encode]
    rw [show (String.mk (encodeL v 0)).data = encodeL v 0 from rfl]
    rw [hlines, splitNl_joinWith _ hne (fun l hl => (hok l hl).1)]
    rw [List.filter_eq_self.2 ?_]
    intro l hl
    simpa using (hok l hl).2
  rw [decode_eq, hdl]
  have hres := parse_encLines g v 0 [] (2 * ((encLinesF g v 0).length + 0) + 2)
    hg (postOk_nil 0) (by simp)
  rw [List.append_nil] at hres
  rw [show 2 * (encLinesF g v 0).length + 2 =
    2 * ((encLinesF g v 0).length + 0) + 2 by omega, hres]

/-- C1 counterexample: the object `{"k": "true"}` has no double quote, is
not a top-level primitive, has no array and no empty container, yet it does
not survive the round trip: its string value `"true"` is emitted bare and
reparsed as the boolean `true`, so `decode(encode(v))` differs from `v`
under the key-order-insensitive equality. -/
theorem c1_counterexample :
    decode (encode (Value.vobj [("k", Value.vstr "true")]) 0) =
      Value.vobj [("k", Value.vbool true)] ∧
    ¬ KeyPermEq (Value.vobj [("k", Value.vbool true)])
      (Value.vobj [("k", Value.vstr "true")]) := by
  refine ⟨rfl, ?_⟩
  intro h
  cases h with
  | obj hfg hperm =>
    cases hfg with
    | cons k hkv ht =>
      cases ht
      have heq := List.singleton_perm_singleton.1 hperm
      injection heq with heq1 heq2
      rw [heq2] at hkv
      cases hkv

/-- C1 corrected: `decode (encode v)` equals `v` up to object key order for
every tree in the fuelled good domain `goodF`: objects are non-empty with
distinct §3-conformant keys (non-empty, whitespace-free, quote-free, no
`$S`), string values are newline-free, quote-free and (when emitted bare)
not reinterpretable as a literal or number, and every array is a uniform
object array of length above one whose rows hold such primitive values.
Outside this domain the claim fails, e.g. on `{"k": "true"}`. -/
theorem c1_round_trip_amended (g : Nat) (v : Value)
    (h : goodF g v = true) : KeyPermEq (decode (encode v 0)) v := by
  rw [decode_encode_good h]
  exact normalize_keyPermEq g v h

theorem c1_round_trip_amended_witness :
    goodF 3 (Value.vobj [("a", Value.vnum 1),
      ("team", Value.vobj [("name", Value.vstr "core"),
        ("members", Value.varr [
          Value.vobj [("id", Value.vnum 1), ("tag", Value.vstr "x")],
          Value.vobj [("id", Value.vnum 2), ("tag", Value.vstr "y")]])])]) =
      true ∧
    KeyPermEq (decode (encode (Value.vobj [("a", Value.vnum 1),
      ("team", Value.vobj [("name", Value.vstr "core"),
        ("members", Value.varr [
          Value.vobj [("id", Value.vnum 1), ("tag", Value.vstr "x")],
          Value.vobj [("id", Value.vnum 2), ("tag", Value.vstr "y")]])])]) 0))
      (Value.vobj [("a", Value.vnum 1),
        ("team", Value.vobj [("name", Value.vstr "core"),
          ("members", Value.varr [
            Value.vobj [("id", Value.vnum 1), ("tag", Value.vstr "x")],
            Value.vobj [("id", Value.vnum 2), ("tag", Value.vstr "y")]])])]) :=
  ⟨by decide, c1_round_trip_amended 3 _ (by decide)⟩

end YSON





